import Mathlib

/- Verification of the maximal-intervals minimizer for partial Boolean functions
   (maximal_intervals_minimizer.py).  The Lean definitions below are a shallow
   embedding of the Python source: Python arbitrary-precision integers used as
   bit masks become Nat, Python lists become List, the ValueError raised by the
   constructor becomes Except.error, and the unbounded while-loops (the
   breadth-first search and the greedy cover loops) run on an explicit fuel
   argument large enough to reach each loop's exit condition. -/

/-- popcountF fuel m computes the number of set bits of m (Python
    bin(m).count("1")) by halving; any fuel ≥ m lets the recursion finish. -/
def popcountF : Nat → Nat → Nat
  | 0, _ => 0
  | fuel + 1, m => if m = 0 then 0 else m % 2 + popcountF fuel (m / 2)

/-- popcount m is the number of set bits of m, as used throughout the source
    for bin(x).count("1"). -/
def popcount (m : Nat) : Nat := popcountF m m

/-- bitLenF fuel m computes Python int.bit_length for fuel ≥ m. -/
def bitLenF : Nat → Nat → Nat
  | 0, _ => 0
  | fuel + 1, m => if m = 0 then 0 else bitLenF fuel (m / 2) + 1

/-- bitLen m is Python m.bit_length(). -/
def bitLen (m : Nat) : Nat := bitLenF m m

theorem popcountF_congr : ∀ {fuel1 fuel2 m : Nat}, m ≤ fuel1 → m ≤ fuel2 →
    popcountF fuel1 m = popcountF fuel2 m := by
  intro fuel1
  induction fuel1 with
  | zero =>
    intro fuel2 m h1 _
    have hm : m = 0 := Nat.le_zero.mp h1
    subst hm
    cases fuel2 <;> simp [popcountF]
  | succ k ih =>
    intro fuel2 m h1 h2
    by_cases hm : m = 0
    · subst hm; cases fuel2 <;> simp [popcountF]
    · have hpos : 1 ≤ m := Nat.one_le_iff_ne_zero.mpr hm
      cases fuel2 with
      | zero => omega
      | succ j =>
        have hd : m / 2 < m := Nat.div_lt_self hpos (by omega)
        have hk : m / 2 ≤ k := by omega
        have hj : m / 2 ≤ j := by omega
        simp only [popcountF, if_neg hm]
        exact congrArg (m % 2 + ·) (ih hk hj)

theorem popcount_rec (m : Nat) :
    popcount m = if m = 0 then 0 else m % 2 + popcount (m / 2) := by
  by_cases hm : m = 0
  · subst hm; rfl
  · cases m with
    | zero => exact absurd rfl hm
    | succ k =>
      have hd : (k + 1) / 2 ≤ k := by omega
      simp only [popcount, popcountF, if_neg hm]
      exact congrArg ((k + 1) % 2 + ·) (popcountF_congr hd (Nat.le_refl _))

theorem bitLenF_congr : ∀ {fuel1 fuel2 m : Nat}, m ≤ fuel1 → m ≤ fuel2 →
    bitLenF fuel1 m = bitLenF fuel2 m := by
  intro fuel1
  induction fuel1 with
  | zero =>
    intro fuel2 m h1 _
    have hm : m = 0 := Nat.le_zero.mp h1
    subst hm
    cases fuel2 <;> simp [bitLenF]
  | succ k ih =>
    intro fuel2 m h1 h2
    by_cases hm : m = 0
    · subst hm; cases fuel2 <;> simp [bitLenF]
    · have hpos : 1 ≤ m := Nat.one_le_iff_ne_zero.mpr hm
      cases fuel2 with
      | zero => omega
      | succ j =>
        have hd : m / 2 < m := Nat.div_lt_self hpos (by omega)
        have hk : m / 2 ≤ k := by omega
        have hj : m / 2 ≤ j := by omega
        simp only [bitLenF, if_neg hm]
        exact congrArg (· + 1) (ih hk hj)

theorem bitLen_rec (m : Nat) :
    bitLen m = if m = 0 then 0 else bitLen (m / 2) + 1 := by
  by_cases hm : m = 0
  · subst hm; rfl
  · cases m with
    | zero => exact absurd rfl hm
    | succ k =>
      have hd : (k + 1) / 2 ≤ k := by omega
      simp only [bitLen, bitLenF, if_neg hm]
      exact congrArg (· + 1) (bitLenF_congr hd (Nat.le_refl _))

theorem bitLen_two_pow (k : Nat) : bitLen (2 ^ k) = k + 1 := by
  induction k with
  | zero => rfl
  | succ k ih =>
    have hne : 2 ^ (k + 1) ≠ 0 := Nat.pos_iff_ne_zero.mp (Nat.pos_pow_of_pos _ (by omega))
    have hdiv : 2 ^ (k + 1) / 2 = 2 ^ k := by
      rw [Nat.pow_succ]
      exact Nat.mul_div_cancel _ (by omega)
    rw [bitLen_rec, if_neg hne, hdiv, ih]

theorem popcount_zero : popcount 0 = 0 := rfl

theorem popcount_two_pow (k : Nat) : popcount (2 ^ k) = 1 := by
  induction k with
  | zero => rfl
  | succ k ih =>
    have hne : 2 ^ (k + 1) ≠ 0 := Nat.pos_iff_ne_zero.mp (Nat.pos_pow_of_pos _ (by omega))
    have hdiv : 2 ^ (k + 1) / 2 = 2 ^ k := by
      rw [Nat.pow_succ]
      exact Nat.mul_div_cancel _ (by omega)
    have hmod : 2 ^ (k + 1) % 2 = 0 := by
      rw [Nat.pow_succ]
      exact Nat.mul_mod_left _ _
    rw [popcount_rec, if_neg hne, hdiv, hmod, ih]

theorem popcount_lor_disjoint_aux :
    ∀ n a b : Nat, a + b ≤ n → a &&& b = 0 →
      popcount (a ||| b) = popcount a + popcount b := by
  intro n
  induction n with
  | zero =>
    intro a b h _
    have ha : a = 0 := by omega
    have hb : b = 0 := by omega
    subst ha; subst hb
    simp [popcount_zero]
  | succ n ih =>
    intro a b h hd
    by_cases ha : a = 0
    · subst ha; simp [popcount_zero]
    · by_cases hb : b = 0
      · subst hb; simp [popcount_zero]
      · have hor : a ||| b ≠ 0 := by
          intro h0
          apply ha
          apply Nat.eq_of_testBit_eq
          intro i
          have hbit := congrArg (fun x => Nat.testBit x i) h0
          simp only [Nat.testBit_or, Nat.zero_testBit] at hbit
          simp [(Bool.or_eq_false_iff.mp hbit).1]
        have hdiv : (a ||| b) / 2 = a / 2 ||| b / 2 := Nat.or_div_two
        have hd2 : a / 2 &&& b / 2 = 0 := by
          rw [← Nat.and_div_two, hd]
        have ha2 : a / 2 < a := Nat.div_lt_self (Nat.pos_iff_ne_zero.mpr ha) (by omega)
        have hb2 : b / 2 < b := Nat.div_lt_self (Nat.pos_iff_ne_zero.mpr hb) (by omega)
        have hle : a / 2 + b / 2 ≤ n := by omega
        have hmodand : (a &&& b) % 2 = 0 := by rw [hd]
        have hnotboth : ¬(a % 2 = 1 ∧ b % 2 = 1) := by
          intro hboth
          have := Nat.and_mod_two_eq_one.mpr hboth
          omega
        have hmodor : (a ||| b) % 2 = a % 2 + b % 2 := by
          rcases Nat.mod_two_eq_zero_or_one a with h1 | h1 <;>
            rcases Nat.mod_two_eq_zero_or_one b with h2 | h2
          · have : ¬((a ||| b) % 2 = 1) := by
              intro hx
              rcases Nat.or_mod_two_eq_one.mp hx with hy | hy <;> omega
            omega
          · have : (a ||| b) % 2 = 1 := Nat.or_mod_two_eq_one.mpr (Or.inr h2)
            omega
          · have : (a ||| b) % 2 = 1 := Nat.or_mod_two_eq_one.mpr (Or.inl h1)
            omega
          · exact absurd ⟨h1, h2⟩ hnotboth
        rw [popcount_rec, if_neg hor, hdiv, ih (a / 2) (b / 2) hle hd2,
          popcount_rec a, if_neg ha, popcount_rec b, if_neg hb, hmodor]
        omega

theorem popcount_lor_disjoint {a b : Nat} (hd : a &&& b = 0) :
    popcount (a ||| b) = popcount a + popcount b :=
  popcount_lor_disjoint_aux (a + b) a b (Nat.le_refl _) hd

theorem popcount_eq_zero {m : Nat} : popcount m = 0 ↔ m = 0 := by
  constructor
  · intro h
    by_contra hm
    induction m using Nat.strong_induction_on with
    | _ m ih =>
      rw [popcount_rec, if_neg hm] at h
      rcases Nat.mod_two_eq_zero_or_one m with h1 | h1
      · have hm2 : m / 2 ≠ 0 := by omega
        have hlt : m / 2 < m := Nat.div_lt_self (Nat.pos_iff_ne_zero.mpr hm) (by omega)
        exact ih (m / 2) hlt (by omega) hm2
      · omega
  · intro h; subst h; rfl

theorem popcount_pos {m : Nat} (hm : m ≠ 0) : 0 < popcount m := by
  rcases Nat.eq_zero_or_pos (popcount m) with h | h
  · exact absurd (popcount_eq_zero.mp h) hm
  · exact h

theorem popcount_le_of_lt_two_pow :
    ∀ n : Nat, ∀ {m : Nat}, m < 2 ^ n → popcount m ≤ n := by
  intro n
  induction n with
  | zero =>
    intro m hm
    have : m = 0 := by simpa using hm
    subst this
    simp [popcount_zero]
  | succ n ih =>
    intro m hm
    by_cases h : m = 0
    · subst h; simp [popcount_zero]
    · rw [popcount_rec, if_neg h]
      have hd : m / 2 < 2 ^ n := by
        have h2 : (2 : Nat) ^ (n + 1) = 2 ^ n * 2 := by rw [Nat.pow_succ]
        omega
      have := ih hd
      omega

theorem popcount_two_pow_sub_one (n : Nat) : popcount (2 ^ n - 1) = n := by
  induction n with
  | zero => rfl
  | succ n ih =>
    have h2 : (2 : Nat) ^ (n + 1) = 2 ^ n * 2 := by rw [Nat.pow_succ]
    have hpos : 0 < (2 : Nat) ^ n := Nat.pos_pow_of_pos _ (by omega)
    have hne : 2 ^ (n + 1) - 1 ≠ 0 := by omega
    have hdiv : (2 ^ (n + 1) - 1) / 2 = 2 ^ n - 1 := by omega
    have hmod : (2 ^ (n + 1) - 1) % 2 = 1 := by omega
    rw [popcount_rec, if_neg hne, hdiv, hmod, ih]
    omega

theorem ldiff_div_two (a b : Nat) : Nat.ldiff a b / 2 = Nat.ldiff (a / 2) (b / 2) := by
  apply Nat.eq_of_testBit_eq
  intro i
  rw [Nat.testBit_div_two, Nat.testBit_ldiff, Nat.testBit_ldiff,
    Nat.testBit_add_one, Nat.testBit_add_one]

theorem lsb_spec : ∀ m : Nat, m ≠ 0 →
    ∃ k, m.testBit k = true ∧ m &&& (m - 1) = Nat.ldiff m (2 ^ k) := by
  intro m
  induction m using Nat.strong_induction_on with
  | _ m ih =>
    intro hm
    rcases Nat.mod_two_eq_zero_or_one m with he | ho
    · have hm2 : m / 2 ≠ 0 := by omega
      have hlt : m / 2 < m := Nat.div_lt_self (by omega) (by omega)
      obtain ⟨k, hbit, heq⟩ := ih (m / 2) hlt hm2
      have hdiv2 : (2 : Nat) ^ (k + 1) / 2 = 2 ^ k := by
        rw [Nat.pow_succ]
        exact Nat.mul_div_cancel _ (by omega)
      refine ⟨k + 1, ?_, ?_⟩
      · rw [Nat.testBit_add_one]; exact hbit
      · apply Nat.eq_of_testBit_eq
        intro i
        cases i with
        | zero =>
          rw [Nat.testBit_ldiff]
          simp only [Nat.testBit_and, Nat.testBit_zero]
          have h1 : ¬ (m % 2 = 1) := by omega
          simp [h1]
        | succ i =>
          have hsub : (m - 1) / 2 = m / 2 - 1 := by omega
          have hL : (m &&& (m - 1)).testBit (i + 1) =
              (Nat.ldiff (m / 2) (2 ^ k)).testBit i := by
            rw [Nat.testBit_add_one, Nat.and_div_two, hsub, heq]
          rw [hL, Nat.testBit_add_one, ldiff_div_two, hdiv2]
    · refine ⟨0, ?_, ?_⟩
      · simp [Nat.testBit_zero, ho]
      · apply Nat.eq_of_testBit_eq
        intro i
        cases i with
        | zero =>
          have h1 : (m - 1) % 2 = 0 := by omega
          rw [Nat.testBit_ldiff]
          simp only [Nat.testBit_and, Nat.testBit_zero, pow_zero]
          simp [h1]
        | succ i =>
          have hsub : (m - 1) / 2 = m / 2 := by omega
          have hL : (m &&& (m - 1)).testBit (i + 1) = (m / 2).testBit i := by
            rw [Nat.testBit_add_one, Nat.and_div_two, hsub, Nat.and_self]
          have h1 : Nat.testBit (2 ^ 0) (i + 1) = false := by
            rw [Nat.testBit_add_one]
            simp
          rw [hL, Nat.testBit_ldiff, h1, Nat.testBit_add_one]
          simp

theorem ldiff_lor_two_pow {m k : Nat} (h : m.testBit k = true) :
    Nat.ldiff m (2 ^ k) ||| 2 ^ k = m ∧ Nat.ldiff m (2 ^ k) &&& 2 ^ k = 0 := by
  constructor
  · apply Nat.eq_of_testBit_eq
    intro i
    simp only [Nat.testBit_or, Nat.testBit_ldiff, Nat.testBit_two_pow]
    by_cases hik : k = i
    · subst hik; simp [h]
    · simp [hik]
  · apply Nat.eq_of_testBit_eq
    intro i
    simp only [Nat.testBit_and, Nat.testBit_ldiff, Nat.testBit_two_pow, Nat.zero_testBit]
    by_cases hik : k = i
    · simp [hik]
    · simp [hik]

theorem popcount_ldiff_two_pow {m k : Nat} (h : m.testBit k = true) :
    popcount (Nat.ldiff m (2 ^ k)) + 1 = popcount m := by
  obtain ⟨hor, hand⟩ := ldiff_lor_two_pow h
  calc popcount (Nat.ldiff m (2 ^ k)) + 1
      = popcount (Nat.ldiff m (2 ^ k)) + popcount (2 ^ k) := by rw [popcount_two_pow]
    _ = popcount (Nat.ldiff m (2 ^ k) ||| 2 ^ k) := (popcount_lor_disjoint hand).symm
    _ = popcount m := by rw [hor]

theorem ldiff_two_pow_lt {m k : Nat} (h : m.testBit k = true) :
    Nat.ldiff m (2 ^ k) < m := by
  apply Nat.lt_of_testBit k
  · simp [Nat.testBit_ldiff, Nat.testBit_two_pow]
  · exact h
  · intro j hj
    have hne : k ≠ j := by omega
    simp [Nat.testBit_ldiff, Nat.testBit_two_pow, hne]

theorem lsb_xor_eq {m k : Nat} (h : m.testBit k = true)
    (heq : m &&& (m - 1) = Nat.ldiff m (2 ^ k)) :
    m ^^^ (m &&& (m - 1)) = 2 ^ k := by
  rw [heq]
  apply Nat.eq_of_testBit_eq
  intro i
  simp only [Nat.testBit_xor, Nat.testBit_ldiff, Nat.testBit_two_pow]
  by_cases hik : k = i
  · subst hik; simp [h]
  · cases hmi : m.testBit i <;> simp [hik, hmi]

theorem and_pred_lt {m : Nat} (hm : m ≠ 0) : m &&& (m - 1) < m := by
  obtain ⟨k, hbit, heq⟩ := lsb_spec m hm
  rw [heq]
  exact ldiff_two_pow_lt hbit

/-- bitIndicesF fuel m lists the indices of the set bits of m, least first, the
    way every `while temp: lsb = temp & -temp; ...; temp ^= lsb` loop of the
    source walks them; fuel ≥ m lets the loop finish. -/
def bitIndicesF : Nat → Nat → List Nat
  | 0, _ => []
  | fuel + 1, m =>
    if m = 0 then []
    else (bitLen (m ^^^ (m &&& (m - 1))) - 1) :: bitIndicesF fuel (m &&& (m - 1))

/-- bitIndices m is the list of set-bit positions of m in increasing order. -/
def bitIndices (m : Nat) : List Nat := bitIndicesF m m

theorem bitIndicesF_congr : ∀ {fuel1 fuel2 m : Nat}, m ≤ fuel1 → m ≤ fuel2 →
    bitIndicesF fuel1 m = bitIndicesF fuel2 m := by
  intro fuel1
  induction fuel1 with
  | zero =>
    intro fuel2 m h1 _
    have hm : m = 0 := Nat.le_zero.mp h1
    subst hm
    cases fuel2 <;> simp [bitIndicesF]
  | succ k ih =>
    intro fuel2 m h1 h2
    by_cases hm : m = 0
    · subst hm; cases fuel2 <;> simp [bitIndicesF]
    · cases fuel2 with
      | zero => omega
      | succ j =>
        have hd : m &&& (m - 1) < m := and_pred_lt hm
        have hk : m &&& (m - 1) ≤ k := by omega
        have hj : m &&& (m - 1) ≤ j := by omega
        simp only [bitIndicesF, if_neg hm]
        exact congrArg _ (ih hk hj)

theorem bitIndices_rec (m : Nat) :
    bitIndices m = if m = 0 then []
      else (bitLen (m ^^^ (m &&& (m - 1))) - 1) :: bitIndices (m &&& (m - 1)) := by
  by_cases hm : m = 0
  · subst hm; rfl
  · cases m with
    | zero => exact absurd rfl hm
    | succ k =>
      have hlt : (k + 1) &&& (k + 1 - 1) < k + 1 := @and_pred_lt (k + 1) (by omega)
      simp only [bitIndices, bitIndicesF, if_neg hm]
      congr 1
      exact bitIndicesF_congr (by omega) (Nat.le_refl _)

theorem mem_bitIndices : ∀ {m k : Nat}, k ∈ bitIndices m ↔ m.testBit k = true := by
  intro m
  induction m using Nat.strong_induction_on with
  | _ m ih =>
    intro k
    by_cases hm : m = 0
    · subst hm
      simp [bitIndices_rec, Nat.zero_testBit]
    · obtain ⟨j, hbit, heq⟩ := lsb_spec m hm
      have hlsb : m ^^^ (m &&& (m - 1)) = 2 ^ j := lsb_xor_eq hbit heq
      have hhead : bitLen (m ^^^ (m &&& (m - 1))) - 1 = j := by
        rw [hlsb, bitLen_two_pow]
        omega
      have hrest : m &&& (m - 1) < m := and_pred_lt hm
      rw [bitIndices_rec, if_neg hm, hhead, List.mem_cons, ih _ hrest, heq]
      simp only [Nat.testBit_ldiff, Nat.testBit_two_pow]
      by_cases hkj : k = j
      · subst hkj
        simp [hbit]
      · have hjk : ¬ (j = k) := fun h => hkj h.symm
        simp [hkj, hjk]

theorem length_bitIndices : ∀ m : Nat, (bitIndices m).length = popcount m := by
  intro m
  induction m using Nat.strong_induction_on with
  | _ m ih =>
    by_cases hm : m = 0
    · subst hm
      simp [bitIndices_rec, popcount_zero]
    · obtain ⟨j, hbit, heq⟩ := lsb_spec m hm
      have hrest : m &&& (m - 1) < m := and_pred_lt hm
      rw [bitIndices_rec, if_neg hm, List.length_cons, ih _ hrest, heq,
        popcount_ldiff_two_pow hbit]

theorem ldiff_eq_zero_iff {a b : Nat} :
    Nat.ldiff a b = 0 ↔ ∀ i, a.testBit i = true → b.testBit i = true := by
  constructor
  · intro h i ha
    have hbit := congrArg (fun x => Nat.testBit x i) h
    simp only [Nat.testBit_ldiff, Nat.zero_testBit] at hbit
    rw [ha] at hbit
    simpa using hbit
  · intro h
    apply Nat.eq_of_testBit_eq
    intro i
    simp only [Nat.testBit_ldiff, Nat.zero_testBit]
    cases ha : a.testBit i
    · simp
    · simp [h i ha]

/-- andNot a b embeds the Python expression a & ~b on nonnegative ints: the
    bits of a that are not in b. -/
def andNot (a b : Nat) : Nat := a ^^^ (a &&& b)

theorem andNot_eq_ldiff (a b : Nat) : andNot a b = Nat.ldiff a b := by
  apply Nat.eq_of_testBit_eq
  intro i
  simp only [andNot, Nat.testBit_xor, Nat.testBit_and, Nat.testBit_ldiff]
  cases a.testBit i <;> cases b.testBit i <;> rfl

theorem lt_two_pow_of_testBit_subset {x y N : Nat}
    (hs : ∀ i, x.testBit i = true → y.testBit i = true) (hy : y < 2 ^ N) :
    x < 2 ^ N := by
  apply Nat.lt_pow_two_of_testBit
  intro i hi
  cases hx : x.testBit i
  · rfl
  · have := hs i hx
    rw [Nat.testBit_lt_two_pow (Nat.lt_of_lt_of_le hy (Nat.pow_le_pow_right (by omega) hi))] at this
    exact absurd this (by simp)

theorem testBit_imp_lt {x N i : Nat} (hx : x < 2 ^ N) (hi : x.testBit i = true) : i < N := by
  by_contra h
  rw [Nat.testBit_lt_two_pow (Nat.lt_of_lt_of_le hx (Nat.pow_le_pow_right (by omega) (by omega)))] at hi
  exact absurd hi (by simp)

theorem ne_zero_iff_exists_testBit {m : Nat} :
    m ≠ 0 ↔ ∃ i, m.testBit i = true := by
  constructor
  · exact Nat.ne_zero_implies_bit_true
  · rintro ⟨i, hi⟩ h0
    subst h0
    simp at hi

/-- A Boolean interval (conjunctive term), mirroring the Python class
    BooleanInterval: a pair of n-bit masks (mask, value). -/
structure BooleanInterval where
  n : Nat
  mask : Nat
  value : Nat
  deriving DecidableEq, Repr

namespace BooleanInterval

/-- make n mask value mirrors BooleanInterval.__init__: the mask is truncated
    to n bits and the value to the bits present in the truncated mask. -/
def make (n mask value : Nat) : BooleanInterval :=
  ⟨n, mask &&& (2 ^ n - 1), value &&& (mask &&& (2 ^ n - 1))⟩

/-- WFn n t says t is an interval over n variables with the normalization
    established by __init__: mask inside n bits and value inside mask. -/
def WFn (n : Nat) (t : BooleanInterval) : Prop :=
  t.n = n ∧ t.mask < 2 ^ n ∧ t.value &&& t.mask = t.value

/-- covers_point mirrors BooleanInterval.covers_point:
    (point & mask) == value. -/
def covers_point (t : BooleanInterval) (point : Nat) : Bool :=
  point &&& t.mask == t.value

/-- buildPoint fuel point tempFree tempVal is the inner loop of covers_mask
    and get_all_points_mask: fuel times (with the source's early break on
    tempFree == 0) it moves the lowest bit of tempFree into point when the
    current low bit of tempVal is set. -/
def buildPoint : Nat → Nat → Nat → Nat → Nat
  | 0, point, _, _ => point
  | fuel + 1, point, tempFree, tempVal =>
    if tempFree = 0 then point
    else
      buildPoint fuel
        (if tempVal % 2 = 1 then point ||| (tempFree ^^^ (tempFree &&& (tempFree - 1)))
         else point)
        (tempFree &&& (tempFree - 1)) (tempVal / 2)

/-- covers_mask mirrors BooleanInterval.covers_mask: the subset of the given
    mask's points covered by the interval, computed by enumerating the
    interval's own points over all combinations of its free variables. -/
def covers_mask (t : BooleanInterval) (mask : Nat) : Nat :=
  if t.mask = 0 then mask
  else
    (List.range (2 ^ (t.n - popcount t.mask))).foldl
      (fun result freeVal =>
        let point := buildPoint (t.n - popcount t.mask) t.value
          ((2 ^ t.n - 1) ^^^ t.mask) freeVal
        if point < 2 ^ t.n ∧ mask.testBit point = true then result ||| 2 ^ point
        else result) 0

/-- get_all_points_mask mirrors BooleanInterval.get_all_points_mask. -/
def get_all_points_mask (t : BooleanInterval) : Nat :=
  if t.mask = 0 then 2 ^ 2 ^ t.n - 1
  else
    (List.range (2 ^ (t.n - popcount t.mask))).foldl
      (fun result freeVal =>
        let point := buildPoint (t.n - popcount t.mask) t.value
          ((2 ^ t.n - 1) ^^^ t.mask) freeVal
        if point < 2 ^ t.n then result ||| 2 ^ point else result) 0

/-- is_subset_of mirrors BooleanInterval.is_subset_of: the pure mask/value
    comparison. -/
def is_subset_of (t other : BooleanInterval) : Bool :=
  (t.mask &&& other.mask == other.mask) && (t.value &&& other.mask == other.value)

/-- expand mirrors BooleanInterval.expand: for each variable present in the
    term (walked lowest set bit first, as the source's while loop does), drop
    it, and keep the dropped-literal interval when the points it newly covers
    all lie in allowed. -/
def expand (t : BooleanInterval) (allowed : Nat) : List BooleanInterval :=
  (bitIndices t.mask).filterMap (fun k =>
    let newMask := t.mask ^^^ 2 ^ k
    let newInterval := make t.n newMask (t.value &&& newMask)
    if andNot (andNot newInterval.get_all_points_mask t.get_all_points_mask)
        allowed = 0 then
      some newInterval
    else none)

/-- size mirrors BooleanInterval.size: 2^(number of free variables). -/
def size (t : BooleanInterval) : Nat := 2 ^ (t.n - popcount t.mask)

end BooleanInterval

theorem buildPoint_or : ∀ (fuel point free v : Nat),
    BooleanInterval.buildPoint fuel point free v =
      point ||| BooleanInterval.buildPoint fuel 0 free v := by
  intro fuel
  induction fuel with
  | zero =>
    intro point free v
    simp [BooleanInterval.buildPoint]
  | succ fuel ih =>
    intro point free v
    by_cases hf : free = 0
    · simp [BooleanInterval.buildPoint, hf]
    · simp only [BooleanInterval.buildPoint, if_neg hf]
      rcases Nat.mod_two_eq_zero_or_one v with hv | hv
      · have h1 : ¬ (v % 2 = 1) := by omega
        rw [if_neg h1, if_neg h1, ih]
      · rw [if_pos hv, if_pos hv, ih, ih (0 ||| _)]
        simp [Nat.lor_assoc]

theorem buildPoint_subset : ∀ (fuel free v i : Nat),
    (BooleanInterval.buildPoint fuel 0 free v).testBit i = true →
      free.testBit i = true := by
  intro fuel
  induction fuel with
  | zero =>
    intro free v i h
    simp [BooleanInterval.buildPoint] at h
  | succ fuel ih =>
    intro free v i h
    by_cases hf : free = 0
    · simp [BooleanInterval.buildPoint, hf] at h
    · obtain ⟨j, hbit, heq⟩ := lsb_spec free hf
      have hlsb : free ^^^ (free &&& (free - 1)) = 2 ^ j := lsb_xor_eq hbit heq
      simp only [BooleanInterval.buildPoint, if_neg hf] at h
      rw [buildPoint_or, hlsb, heq, Nat.testBit_or, Bool.or_eq_true] at h
      rcases h with h1 | h1
      · rcases Nat.mod_two_eq_zero_or_one v with hv | hv
        · rw [if_neg (by omega)] at h1
          simp at h1
        · rw [if_pos hv] at h1
          simp only [Nat.zero_or, Nat.testBit_two_pow, decide_eq_true_eq] at h1
          exact h1 ▸ hbit
      · have hr := ih _ _ _ h1
        simp only [Nat.testBit_ldiff, Bool.and_eq_true] at hr
        exact hr.1

theorem buildPoint_surj :
    ∀ free s : Nat, (∀ i, s.testBit i = true → free.testBit i = true) →
      ∃ v, v < 2 ^ popcount free ∧
        BooleanInterval.buildPoint (popcount free) 0 free v = s := by
  intro free
  induction free using Nat.strong_induction_on with
  | _ free ih =>
    intro s hs
    by_cases hf : free = 0
    · subst hf
      have hs0 : s = 0 := by
        apply Nat.eq_of_testBit_eq
        intro i
        cases hsi : s.testBit i
        · simp
        · exact absurd (hs i hsi) (by simp)
      subst hs0
      exact ⟨0, by simp [popcount_zero], rfl⟩
    · obtain ⟨j, hbit, heq⟩ := lsb_spec free hf
      have hlsb : free ^^^ (free &&& (free - 1)) = 2 ^ j := lsb_xor_eq hbit heq
      have hrest_lt : free &&& (free - 1) < free := and_pred_lt hf
      have hpc : popcount (free &&& (free - 1)) + 1 = popcount free := by
        rw [heq]
        exact popcount_ldiff_two_pow hbit
      have hs' : ∀ i, (Nat.ldiff s (2 ^ j)).testBit i = true →
          (free &&& (free - 1)).testBit i = true := by
        intro i hi
        simp only [Nat.testBit_ldiff, Bool.and_eq_true, Bool.not_eq_true'] at hi
        rw [heq]
        simp only [Nat.testBit_ldiff, Bool.and_eq_true]
        exact ⟨hs i hi.1, by simp [hi.2]⟩
      obtain ⟨v', hv', hbp⟩ := ih (free &&& (free - 1)) hrest_lt (Nat.ldiff s (2 ^ j)) hs'
      refine ⟨2 * v' + (if s.testBit j then 1 else 0), ?_, ?_⟩
      · have hb : (if s.testBit j then 1 else 0) ≤ 1 := by split <;> omega
        rw [← hpc, Nat.pow_succ]
        omega
      · rw [← hpc]
        simp only [BooleanInterval.buildPoint, if_neg hf]
        have hv2 : (2 * v' + (if s.testBit j then 1 else 0)) / 2 = v' := by
          split <;> omega
        have hm2 : (2 * v' + (if s.testBit j then 1 else 0)) % 2 =
            (if s.testBit j then 1 else 0) := by
          split <;> omega
        rw [hv2, hm2, hlsb, buildPoint_or, hbp]
        by_cases hsj : s.testBit j = true
        · have hcond : (if s.testBit j = true then (1:Nat) else 0) = 1 := by rw [if_pos hsj]
          rw [hcond, if_pos rfl]
          apply Nat.eq_of_testBit_eq
          intro i
          simp only [Nat.testBit_or, Nat.zero_or, Nat.testBit_ldiff, Nat.testBit_two_pow]
          by_cases hij : j = i
          · subst hij
            simp [hsj]
          · simp [hij]
        · have hsj' : s.testBit j = false := Bool.not_eq_true _ ▸ eq_false_of_ne_true hsj
          have hcond : (if s.testBit j = true then (1:Nat) else 0) = 0 := by rw [if_neg hsj]
          rw [hcond, if_neg (by omega : ¬ ((0:Nat) = 1))]
          apply Nat.eq_of_testBit_eq
          intro i
          simp only [Nat.zero_or, Nat.testBit_ldiff]
          by_cases hij : i = j
          · subst hij
            simp [hsj']
          · have h2 : (2 ^ j).testBit i = false := Nat.testBit_two_pow_of_ne (fun h => hij h.symm)
            simp [h2]

theorem free_testBit {n mask : Nat} (hmask : mask < 2 ^ n) (i : Nat) :
    ((2 ^ n - 1) ^^^ mask).testBit i = (decide (i < n) && !mask.testBit i) := by
  rw [Nat.testBit_xor, Nat.testBit_two_pow_sub_one]
  by_cases hi : i < n
  · simp [hi, Bool.xor_comm]
  · have hm : mask.testBit i = false :=
      Nat.testBit_lt_two_pow
        (Nat.lt_of_lt_of_le hmask (Nat.pow_le_pow_right (by omega) (by omega)))
    simp [hi, hm]

theorem free_and_mask {n mask : Nat} (hmask : mask < 2 ^ n) :
    ((2 ^ n - 1) ^^^ mask) &&& mask = 0 := by
  apply Nat.eq_of_testBit_eq
  intro i
  rw [Nat.testBit_and, free_testBit hmask, Nat.zero_testBit]
  cases hmi : mask.testBit i <;> simp [hmi]

theorem free_lor_mask {n mask : Nat} (hmask : mask < 2 ^ n) :
    ((2 ^ n - 1) ^^^ mask) ||| mask = 2 ^ n - 1 := by
  apply Nat.eq_of_testBit_eq
  intro i
  rw [Nat.testBit_or, free_testBit hmask, Nat.testBit_two_pow_sub_one]
  cases hmi : mask.testBit i
  · simp [hmi]
  · have : i < n := testBit_imp_lt hmask hmi
    simp [hmi, this]

theorem popcount_free {n mask : Nat} (hmask : mask < 2 ^ n) :
    popcount ((2 ^ n - 1) ^^^ mask) = n - popcount mask := by
  have hd := popcount_lor_disjoint (free_and_mask hmask)
  rw [free_lor_mask hmask, popcount_two_pow_sub_one] at hd
  have hle : popcount mask ≤ n := popcount_le_of_lt_two_pow n hmask
  omega

theorem foldl_or_testBit (f : Nat → Nat) (P : Nat → Prop) [DecidablePred P] :
    ∀ (l : List Nat) (acc p : Nat),
      ((l.foldl (fun result x => if P x then result ||| 2 ^ f x else result) acc).testBit p
          = true)
        ↔ (acc.testBit p = true ∨ ∃ x ∈ l, P x ∧ f x = p) := by
  intro l
  induction l with
  | nil => simp
  | cons a l ih =>
    intro acc p
    simp only [List.foldl_cons]
    by_cases hPa : P a
    · rw [if_pos hPa, ih]
      simp only [Nat.testBit_or, Nat.testBit_two_pow, Bool.or_eq_true,
        decide_eq_true_eq, List.mem_cons]
      constructor
      · rintro ((h | h) | ⟨x, hx, hPx, hfx⟩)
        · exact Or.inl h
        · exact Or.inr ⟨a, Or.inl rfl, hPa, h⟩
        · exact Or.inr ⟨x, Or.inr hx, hPx, hfx⟩
      · rintro (h | ⟨x, hx | hx, hPx, hfx⟩)
        · exact Or.inl (Or.inl h)
        · subst hx
          exact Or.inl (Or.inr hfx)
        · exact Or.inr ⟨x, hx, hPx, hfx⟩
    · rw [if_neg hPa, ih]
      simp only [List.mem_cons]
      constructor
      · rintro (h | ⟨x, hx, hPx, hfx⟩)
        · exact Or.inl h
        · exact Or.inr ⟨x, Or.inr hx, hPx, hfx⟩
      · rintro (h | ⟨x, hx | hx, hPx, hfx⟩)
        · exact Or.inl h
        · subst hx
          exact absurd hPx hPa
        · exact Or.inr ⟨x, hx, hPx, hfx⟩

theorem covers_point_iff {t : BooleanInterval} {p : Nat} :
    t.covers_point p = true ↔ p &&& t.mask = t.value := by
  simp [BooleanInterval.covers_point]

theorem interval_points_aux {t : BooleanInterval} {n : Nat} (ht : BooleanInterval.WFn n t)
    (p : Nat) :
    (∃ v ∈ List.range (2 ^ (t.n - popcount t.mask)),
        BooleanInterval.buildPoint (t.n - popcount t.mask) t.value
          ((2 ^ t.n - 1) ^^^ t.mask) v = p)
      ↔ (p < 2 ^ n ∧ p &&& t.mask = t.value) := by
  obtain ⟨hn, hmask, hval⟩ := ht
  subst hn
  have hvlt : t.value < 2 ^ t.n := by
    rw [← hval]
    exact Nat.and_lt_two_pow _ hmask
  have hflt : (2 ^ t.n - 1) ^^^ t.mask < 2 ^ t.n :=
    Nat.xor_lt_two_pow (by omega) hmask
  constructor
  · rintro ⟨v, hv, rfl⟩
    constructor
    · apply @lt_two_pow_of_testBit_subset _
        (t.value ||| ((2 ^ t.n - 1) ^^^ t.mask)) _ ?_ (Nat.or_lt_two_pow hvlt hflt)
      intro i hi
      rw [buildPoint_or] at hi
      rw [Nat.testBit_or] at hi ⊢
      rcases Bool.or_eq_true_iff.mp hi with h | h
      · simp [h]
      · simp [buildPoint_subset _ _ _ _ h]
    · rw [buildPoint_or, Nat.and_distrib_right, hval]
      have hs0 : BooleanInterval.buildPoint (t.n - popcount t.mask) 0
          ((2 ^ t.n - 1) ^^^ t.mask) v &&& t.mask = 0 := by
        apply Nat.eq_of_testBit_eq
        intro i
        rw [Nat.testBit_and, Nat.zero_testBit]
        cases hbi : (BooleanInterval.buildPoint (t.n - popcount t.mask) 0
            ((2 ^ t.n - 1) ^^^ t.mask) v).testBit i
        · simp
        · have hfi := buildPoint_subset _ _ _ _ hbi
          rw [free_testBit hmask] at hfi
          rcases Bool.and_eq_true_iff.mp hfi with ⟨_, hmi⟩
          have hmi2 : t.mask.testBit i = false := by simpa using hmi
          simp [hmi2]
      rw [hs0]
      simp
  · rintro ⟨hp, hpm⟩
    have hsub : ∀ i, (Nat.ldiff p t.mask).testBit i = true →
        ((2 ^ t.n - 1) ^^^ t.mask).testBit i = true := by
      intro i hi
      simp only [Nat.testBit_ldiff, Bool.and_eq_true, Bool.not_eq_true'] at hi
      rw [free_testBit hmask]
      have hin : i < t.n := testBit_imp_lt hp hi.1
      simp [hin, hi.2]
    obtain ⟨v, hv, hbp⟩ := buildPoint_surj _ _ hsub
    have hfc : popcount ((2 ^ t.n - 1) ^^^ t.mask) = t.n - popcount t.mask :=
      popcount_free hmask
    rw [hfc] at hv hbp
    refine ⟨v, List.mem_range.mpr hv, ?_⟩
    rw [buildPoint_or, hbp]
    apply Nat.eq_of_testBit_eq
    intro i
    have hv2 := congrArg (fun x => Nat.testBit x i) hpm
    simp only [Nat.testBit_and] at hv2
    rw [Nat.testBit_or, Nat.testBit_ldiff, ← hv2]
    cases hpi : p.testBit i <;> cases hmi : t.mask.testBit i <;> simp [hpi, hmi]

theorem value_eq_zero_of_mask_zero {t : BooleanInterval} {n : Nat}
    (ht : BooleanInterval.WFn n t) (hm0 : t.mask = 0) : t.value = 0 := by
  have h := ht.2.2
  rw [hm0] at h
  simpa using h.symm

theorem testBit_get_all_points {t : BooleanInterval} {n : Nat}
    (ht : BooleanInterval.WFn n t) (p : Nat) :
    t.get_all_points_mask.testBit p = true ↔ p < 2 ^ n ∧ t.covers_point p = true := by
  by_cases hm0 : t.mask = 0
  · have hv0 : t.value = 0 := value_eq_zero_of_mask_zero ht hm0
    have hall : t.get_all_points_mask = 2 ^ 2 ^ t.n - 1 := by
      unfold BooleanInterval.get_all_points_mask
      rw [if_pos hm0]
    rw [hall, Nat.testBit_two_pow_sub_one, decide_eq_true_eq]
    constructor
    · intro h
      refine ⟨by rw [← ht.1]; exact h, ?_⟩
      rw [covers_point_iff, hm0, hv0]
      simp
    · intro h
      rw [ht.1]
      exact h.1
  · have hgen := foldl_or_testBit
      (fun v => BooleanInterval.buildPoint (t.n - popcount t.mask) t.value
        ((2 ^ t.n - 1) ^^^ t.mask) v)
      (fun v => BooleanInterval.buildPoint (t.n - popcount t.mask) t.value
        ((2 ^ t.n - 1) ^^^ t.mask) v < 2 ^ t.n)
      (List.range (2 ^ (t.n - popcount t.mask))) 0 p
    simp only [Nat.zero_testBit, Bool.false_eq_true, false_or] at hgen
    have hfold : t.get_all_points_mask =
        (List.range (2 ^ (t.n - popcount t.mask))).foldl
          (fun result x =>
            if BooleanInterval.buildPoint (t.n - popcount t.mask) t.value
                ((2 ^ t.n - 1) ^^^ t.mask) x < 2 ^ t.n then
              result ||| 2 ^ BooleanInterval.buildPoint (t.n - popcount t.mask) t.value
                ((2 ^ t.n - 1) ^^^ t.mask) x
            else result) 0 := by
      unfold BooleanInterval.get_all_points_mask
      rw [if_neg hm0]
    rw [hfold, hgen]
    constructor
    · rintro ⟨v, hv, _, rfl⟩
      have h := (interval_points_aux ht _).mp ⟨v, hv, rfl⟩
      exact ⟨h.1, covers_point_iff.mpr h.2⟩
    · rintro ⟨hp, hc⟩
      obtain ⟨v, hv, hbp⟩ := (interval_points_aux ht p).mpr ⟨hp, covers_point_iff.mp hc⟩
      refine ⟨v, hv, ?_, hbp⟩
      rw [hbp, ht.1]
      exact hp

theorem testBit_covers_mask {t : BooleanInterval} {n : Nat}
    (ht : BooleanInterval.WFn n t) {m : Nat} (hm : m < 2 ^ 2 ^ n) (p : Nat) :
    (t.covers_mask m).testBit p = true ↔
      m.testBit p = true ∧ t.covers_point p = true := by
  by_cases hm0 : t.mask = 0
  · have hv0 : t.value = 0 := value_eq_zero_of_mask_zero ht hm0
    have hall : t.covers_mask m = m := by
      unfold BooleanInterval.covers_mask
      rw [if_pos hm0]
    rw [hall, covers_point_iff, hm0, hv0]
    simp
  · have hgen := foldl_or_testBit
      (fun v => BooleanInterval.buildPoint (t.n - popcount t.mask) t.value
        ((2 ^ t.n - 1) ^^^ t.mask) v)
      (fun v => BooleanInterval.buildPoint (t.n - popcount t.mask) t.value
          ((2 ^ t.n - 1) ^^^ t.mask) v < 2 ^ t.n ∧
        m.testBit (BooleanInterval.buildPoint (t.n - popcount t.mask) t.value
          ((2 ^ t.n - 1) ^^^ t.mask) v) = true)
      (List.range (2 ^ (t.n - popcount t.mask))) 0 p
    simp only [Nat.zero_testBit, Bool.false_eq_true, false_or] at hgen
    have hfold : t.covers_mask m =
        (List.range (2 ^ (t.n - popcount t.mask))).foldl
          (fun result x =>
            if BooleanInterval.buildPoint (t.n - popcount t.mask) t.value
                  ((2 ^ t.n - 1) ^^^ t.mask) x < 2 ^ t.n ∧
                m.testBit (BooleanInterval.buildPoint (t.n - popcount t.mask) t.value
                  ((2 ^ t.n - 1) ^^^ t.mask) x) = true then
              result ||| 2 ^ BooleanInterval.buildPoint (t.n - popcount t.mask) t.value
                ((2 ^ t.n - 1) ^^^ t.mask) x
            else result) 0 := by
      unfold BooleanInterval.covers_mask
      rw [if_neg hm0]
    rw [hfold, hgen]
    constructor
    · rintro ⟨v, hv, ⟨_, hmb⟩, rfl⟩
      have h := (interval_points_aux ht _).mp ⟨v, hv, rfl⟩
      exact ⟨hmb, covers_point_iff.mpr h.2⟩
    · rintro ⟨hmb, hc⟩
      have hp : p < 2 ^ n := testBit_imp_lt hm hmb
      obtain ⟨v, hv, hbp⟩ := (interval_points_aux ht p).mpr ⟨hp, covers_point_iff.mp hc⟩
      refine ⟨v, hv, ⟨?_, ?_⟩, hbp⟩
      · rw [hbp, ht.1]
        exact hp
      · rw [hbp]
        exact hmb

theorem foldl_or_id {f : Nat → Nat} {P : Nat → Prop} [DecidablePred P]
    (hP : ∀ x, ¬ P x) :
    ∀ (l : List Nat) (acc : Nat),
      l.foldl (fun result x => if P x then result ||| 2 ^ f x else result) acc = acc := by
  intro l
  induction l with
  | nil => intro acc; rfl
  | cons a l ih =>
    intro acc
    simp only [List.foldl_cons, if_neg (hP a)]
    exact ih acc

theorem covers_mask_zero (t : BooleanInterval) : t.covers_mask 0 = 0 := by
  by_cases hm0 : t.mask = 0
  · unfold BooleanInterval.covers_mask
    rw [if_pos hm0]
  · have hgen := @foldl_or_id
      (fun v => BooleanInterval.buildPoint (t.n - popcount t.mask) t.value
        ((2 ^ t.n - 1) ^^^ t.mask) v)
      (fun v => BooleanInterval.buildPoint (t.n - popcount t.mask) t.value
          ((2 ^ t.n - 1) ^^^ t.mask) v < 2 ^ t.n ∧
        (0 : Nat).testBit (BooleanInterval.buildPoint (t.n - popcount t.mask) t.value
          ((2 ^ t.n - 1) ^^^ t.mask) v) = true)
      _ (fun x hx => by simp at hx)
      (List.range (2 ^ (t.n - popcount t.mask))) 0
    unfold BooleanInterval.covers_mask
    rw [if_neg hm0]
    exact hgen

theorem covers_mask_lt {t : BooleanInterval} {n : Nat} (ht : BooleanInterval.WFn n t)
    {m : Nat} (hm : m < 2 ^ 2 ^ n) : t.covers_mask m < 2 ^ 2 ^ n := by
  apply @lt_two_pow_of_testBit_subset _ m _ ?_ hm
  intro i hi
  exact ((testBit_covers_mask ht hm i).mp hi).1

theorem covers_mask_ne_zero_iff {t : BooleanInterval} {n : Nat}
    (ht : BooleanInterval.WFn n t) {m : Nat} (hm : m < 2 ^ 2 ^ n) :
    t.covers_mask m ≠ 0 ↔ ∃ p, m.testBit p = true ∧ t.covers_point p = true := by
  rw [ne_zero_iff_exists_testBit]
  exact exists_congr (fun p => testBit_covers_mask ht hm p)

theorem is_subset_of_covers {a b : BooleanInterval} (hab : a.is_subset_of b = true)
    {p : Nat} (hc : a.covers_point p = true) : b.covers_point p = true := by
  simp only [BooleanInterval.is_subset_of, Bool.and_eq_true_iff, beq_iff_eq] at hab
  rw [covers_point_iff] at hc ⊢
  obtain ⟨hm, hv⟩ := hab
  calc p &&& b.mask = p &&& (a.mask &&& b.mask) := by rw [hm]
    _ = (p &&& a.mask) &&& b.mask := by rw [Nat.and_assoc]
    _ = a.value &&& b.mask := by rw [hc]
    _ = b.value := hv

theorem is_subset_of_refl {t : BooleanInterval} {n : Nat}
    (ht : BooleanInterval.WFn n t) : t.is_subset_of t = true := by
  simp [BooleanInterval.is_subset_of, Nat.and_self, ht.2.2]

theorem is_subset_of_trans {a b c : BooleanInterval}
    (h1 : a.is_subset_of b = true) (h2 : b.is_subset_of c = true) :
    a.is_subset_of c = true := by
  simp only [BooleanInterval.is_subset_of, Bool.and_eq_true_iff, beq_iff_eq] at h1 h2 ⊢
  obtain ⟨hm1, hv1⟩ := h1
  obtain ⟨hm2, hv2⟩ := h2
  constructor
  · calc a.mask &&& c.mask = a.mask &&& (b.mask &&& c.mask) := by rw [hm2]
      _ = (a.mask &&& b.mask) &&& c.mask := by rw [Nat.and_assoc]
      _ = b.mask &&& c.mask := by rw [hm1]
      _ = c.mask := hm2
  · calc a.value &&& c.mask = a.value &&& (b.mask &&& c.mask) := by rw [hm2]
      _ = (a.value &&& b.mask) &&& c.mask := by rw [Nat.and_assoc]
      _ = b.value &&& c.mask := by rw [hv1]
      _ = c.value := hv2

theorem is_subset_antisymm_aux {a b : BooleanInterval} (hn : a.n = b.n)
    (ha : a.value &&& a.mask = a.value) (hb : b.value &&& b.mask = b.value)
    (h1 : a.is_subset_of b = true) (h2 : b.is_subset_of a = true) : a = b := by
  simp only [BooleanInterval.is_subset_of, Bool.and_eq_true_iff, beq_iff_eq] at h1 h2
  have hm : a.mask = b.mask := by
    calc a.mask = b.mask &&& a.mask := h2.1.symm
      _ = a.mask &&& b.mask := Nat.and_comm _ _
      _ = b.mask := h1.1
  have hv : a.value = b.value := by
    calc a.value = a.value &&& a.mask := ha.symm
      _ = a.value &&& b.mask := by rw [hm]
      _ = b.value := h1.2
  cases a
  cases b
  simp only [BooleanInterval.mk.injEq]
  exact ⟨hn, hm, hv⟩

theorem covers_imp_is_subset {a b : BooleanInterval} {n : Nat}
    (ha : BooleanInterval.WFn n a) (hb : BooleanInterval.WFn n b)
    (h : ∀ p, p < 2 ^ n → a.covers_point p = true → b.covers_point p = true) :
    a.is_subset_of b = true := by
  have hav_lt : a.value < 2 ^ n := by
    rw [← ha.2.2]
    exact Nat.and_lt_two_pow _ ha.2.1
  have hp1 : a.covers_point a.value = true := by
    rw [covers_point_iff, ha.2.2]
  simp only [BooleanInterval.is_subset_of, Bool.and_eq_true_iff, beq_iff_eq]
  have hmm : a.mask &&& b.mask = b.mask := by
    by_contra hne
    have hex : ∃ i, b.mask.testBit i = true ∧ a.mask.testBit i = false := by
      by_contra hno
      push_neg at hno
      apply hne
      apply Nat.eq_of_testBit_eq
      intro i
      rw [Nat.testBit_and]
      cases hbi : b.mask.testBit i
      · simp
      · have hne2 := hno i hbi
        have : a.mask.testBit i = true := by
          cases hx : a.mask.testBit i
          · exact absurd hx hne2
          · rfl
        simp [this]
    obtain ⟨i, hbi, hai⟩ := hex
    have hin : i < n := testBit_imp_lt hb.2.1 hbi
    have h2i : 2 ^ i &&& a.mask = 0 := by
      apply Nat.eq_of_testBit_eq
      intro j
      rw [Nat.testBit_and, Nat.zero_testBit, Nat.testBit_two_pow]
      by_cases hij : i = j
      · subst hij
        simp [hai]
      · simp [hij]
    have hp2c : a.covers_point (a.value ||| 2 ^ i) = true := by
      rw [covers_point_iff, Nat.and_distrib_right, h2i, ha.2.2]
      simp
    have h2lt : (2 : Nat) ^ i < 2 ^ n := Nat.pow_lt_pow_right (by omega) hin
    have hc1 := h a.value hav_lt hp1
    have hc2 := h (a.value ||| 2 ^ i) (Nat.or_lt_two_pow hav_lt h2lt) hp2c
    rw [covers_point_iff] at hc1 hc2
    have hb1 := congrArg (fun x => Nat.testBit x i) hc1
    have hb2 := congrArg (fun x => Nat.testBit x i) hc2
    simp only [Nat.testBit_and, Nat.testBit_or, Nat.testBit_two_pow_self] at hb1 hb2
    have hvai : a.value.testBit i = false := by
      have hx := congrArg (fun x => Nat.testBit x i) ha.2.2
      simp only [Nat.testBit_and] at hx
      rw [hai] at hx
      simpa using hx.symm
    rw [hvai, hbi] at hb1 hb2
    simp at hb1 hb2
    rw [hb1] at hb2
    exact absurd hb2 (by simp)
  refine ⟨hmm, ?_⟩
  have h1 := h a.value hav_lt hp1
  rw [covers_point_iff] at h1
  exact h1

theorem xor_two_pow_of_testBit {m k : Nat} (h : m.testBit k = true) :
    m ^^^ 2 ^ k = Nat.ldiff m (2 ^ k) := by
  apply Nat.eq_of_testBit_eq
  intro i
  rw [Nat.testBit_xor, Nat.testBit_ldiff, Nat.testBit_two_pow]
  by_cases hik : k = i
  · subst hik
    simp [h]
  · simp [hik]

theorem make_WFn (n mask value : Nat) :
    BooleanInterval.WFn n (BooleanInterval.make n mask value) := by
  refine ⟨rfl, ?_, ?_⟩
  · show mask &&& (2 ^ n - 1) < 2 ^ n
    have h1 : mask &&& (2 ^ n - 1) ≤ 2 ^ n - 1 := Nat.and_le_right
    have hpos : 0 < 2 ^ n := Nat.pos_pow_of_pos _ (by omega)
    omega
  · show (value &&& (mask &&& (2 ^ n - 1))) &&& (mask &&& (2 ^ n - 1)) =
      value &&& (mask &&& (2 ^ n - 1))
    rw [Nat.and_assoc, Nat.and_self]

theorem mem_expand_iff {t e : BooleanInterval} {allowed : Nat} :
    e ∈ t.expand allowed ↔
      ∃ k, t.mask.testBit k = true ∧
        e = BooleanInterval.make t.n (t.mask ^^^ 2 ^ k)
              (t.value &&& (t.mask ^^^ 2 ^ k)) ∧
        Nat.ldiff (Nat.ldiff e.get_all_points_mask t.get_all_points_mask) allowed = 0 := by
  unfold BooleanInterval.expand
  rw [List.mem_filterMap]
  constructor
  · rintro ⟨k, hk, he⟩
    rw [mem_bitIndices] at hk
    dsimp only at he
    simp only [andNot_eq_ldiff] at he
    by_cases hcond : Nat.ldiff (Nat.ldiff
        (BooleanInterval.make t.n (t.mask ^^^ 2 ^ k)
          (t.value &&& (t.mask ^^^ 2 ^ k))).get_all_points_mask
        t.get_all_points_mask) allowed = 0
    · rw [if_pos hcond] at he
      injection he with he
      subst he
      exact ⟨k, hk, rfl, hcond⟩
    · rw [if_neg hcond] at he
      exact absurd he (by simp)
  · rintro ⟨k, hk, rfl, hcond⟩
    refine ⟨k, mem_bitIndices.mpr hk, ?_⟩
    dsimp only
    simp only [andNot_eq_ldiff]
    rw [if_pos hcond]

theorem expand_mem_spec {t e : BooleanInterval} {n : Nat} {allowed : Nat}
    (ht : BooleanInterval.WFn n t) (he : e ∈ t.expand allowed) :
    BooleanInterval.WFn n e ∧ e.n = t.n ∧
    popcount e.mask + 1 = popcount t.mask ∧
    (∀ p, t.covers_point p = true → e.covers_point p = true) ∧
    (∀ p, p < 2 ^ n → e.covers_point p = true → t.covers_point p = false →
      allowed.testBit p = true) := by
  obtain ⟨k, hk, rfl, hcond⟩ := mem_expand_iff.mp he
  have hxor : t.mask ^^^ 2 ^ k = Nat.ldiff t.mask (2 ^ k) := xor_two_pow_of_testBit hk
  have hnm_lt : t.mask ^^^ 2 ^ k < 2 ^ n := by
    rw [hxor]
    apply @lt_two_pow_of_testBit_subset _ t.mask _ ?_ ht.2.1
    intro i hi
    simp only [Nat.testBit_ldiff, Bool.and_eq_true_iff] at hi
    exact hi.1
  have hm' : t.mask ^^^ 2 ^ k < 2 ^ t.n := by
    rw [ht.1]
    exact hnm_lt
  have hemask : (BooleanInterval.make t.n (t.mask ^^^ 2 ^ k)
      (t.value &&& (t.mask ^^^ 2 ^ k))).mask = t.mask ^^^ 2 ^ k := by
    show (t.mask ^^^ 2 ^ k) &&& (2 ^ t.n - 1) = t.mask ^^^ 2 ^ k
    exact Nat.and_pow_two_sub_one_of_lt_two_pow hm'
  have hevalue : (BooleanInterval.make t.n (t.mask ^^^ 2 ^ k)
      (t.value &&& (t.mask ^^^ 2 ^ k))).value = t.value &&& (t.mask ^^^ 2 ^ k) := by
    show (t.value &&& (t.mask ^^^ 2 ^ k)) &&& ((t.mask ^^^ 2 ^ k) &&& (2 ^ t.n - 1)) =
      t.value &&& (t.mask ^^^ 2 ^ k)
    rw [Nat.and_pow_two_sub_one_of_lt_two_pow hm', Nat.and_assoc, Nat.and_self]
  have hwe : BooleanInterval.WFn n (BooleanInterval.make t.n (t.mask ^^^ 2 ^ k)
      (t.value &&& (t.mask ^^^ 2 ^ k))) := by
    refine ⟨ht.1, ?_, ?_⟩
    · rw [hemask]
      exact hnm_lt
    · rw [hevalue, hemask, Nat.and_assoc, Nat.and_self]
  have hmn : t.mask &&& (t.mask ^^^ 2 ^ k) = t.mask ^^^ 2 ^ k := by
    rw [hxor]
    apply Nat.eq_of_testBit_eq
    intro i
    rw [Nat.testBit_and, Nat.testBit_ldiff]
    cases hmi : t.mask.testBit i <;> simp [hmi]
  have hcovers : ∀ p, t.covers_point p = true →
      (BooleanInterval.make t.n (t.mask ^^^ 2 ^ k)
        (t.value &&& (t.mask ^^^ 2 ^ k))).covers_point p = true := by
    intro p hp
    rw [covers_point_iff] at hp ⊢
    rw [hemask, hevalue]
    calc p &&& (t.mask ^^^ 2 ^ k) = p &&& (t.mask &&& (t.mask ^^^ 2 ^ k)) := by rw [hmn]
      _ = (p &&& t.mask) &&& (t.mask ^^^ 2 ^ k) := by rw [Nat.and_assoc]
      _ = t.value &&& (t.mask ^^^ 2 ^ k) := by rw [hp]
  refine ⟨hwe, rfl, ?_, hcovers, ?_⟩
  · rw [hemask, hxor]
    exact popcount_ldiff_two_pow hk
  · intro p hp hec htc
    have hep : (BooleanInterval.make t.n (t.mask ^^^ 2 ^ k)
        (t.value &&& (t.mask ^^^ 2 ^ k))).get_all_points_mask.testBit p = true :=
      (testBit_get_all_points hwe p).mpr ⟨hp, hec⟩
    have htp : t.get_all_points_mask.testBit p = false := by
      cases hx : t.get_all_points_mask.testBit p
      · rfl
      · have hcc := (testBit_get_all_points ht p).mp hx
        rw [htc] at hcc
        exact absurd hcc.2 (by simp)
    have hall := ldiff_eq_zero_iff.mp hcond p
    apply hall
    simp [Nat.testBit_ldiff, hep, htp]

/-- maskOfList folds a caller-supplied index list into a bit mask, silently
    skipping indices outside [0, 2^n), exactly as the loops of
    PartialBooleanFunction.__init__ do. -/
def maskOfList (n : Nat) (vals : List Int) : Nat :=
  vals.foldl
    (fun m v => if 0 ≤ v ∧ v < (2 : Int) ^ n then m ||| 2 ^ v.toNat else m) 0

/-- The function model: mirrors the Python class PartialBooleanFunction
    (fields ones_mask and dcares_mask; the derived masks are definitions). -/
structure PartialBooleanFunction where
  n : Nat
  ones_mask : Nat
  dcares_mask : Nat
  deriving DecidableEq, Repr

namespace PartialBooleanFunction

/-- significant_mask = ones_mask | dcares_mask, as stored by __init__. -/
def significant_mask (f : PartialBooleanFunction) : Nat :=
  f.ones_mask ||| f.dcares_mask

/-- zeros_mask = ((1 << 2^n) - 1) & ~significant_mask, as stored by
    __init__. -/
def zeros_mask (f : PartialBooleanFunction) : Nat :=
  Nat.ldiff (2 ^ 2 ^ f.n - 1) f.significant_mask

/-- make mirrors PartialBooleanFunction.__init__, with the ValueError on
    intersecting masks rendered as Except.error. -/
def make (n : Nat) (ones dcares : List Int) : Except String PartialBooleanFunction :=
  let om := maskOfList n ones
  let dm := maskOfList n dcares
  if om &&& dm ≠ 0 then Except.error "ones and dcares must not intersect"
  else Except.ok ⟨n, om, dm⟩

end PartialBooleanFunction

theorem maskOfList_foldl (n p : Nat) : ∀ (vals : List Int) (acc : Nat),
    ((vals.foldl
        (fun m v => if 0 ≤ v ∧ v < (2 : Int) ^ n then m ||| 2 ^ v.toNat else m)
        acc).testBit p = true)
      ↔ (acc.testBit p = true ∨ ((p : Int) ∈ vals ∧ p < 2 ^ n)) := by
  intro vals
  induction vals with
  | nil => intro acc; simp
  | cons v l ih =>
    intro acc
    have hcast : ((2 ^ n : Nat) : Int) = (2 : Int) ^ n := by push_cast; ring
    simp only [List.foldl_cons]
    by_cases hv : 0 ≤ v ∧ v < (2 : Int) ^ n
    · rw [if_pos hv, ih]
      constructor
      · rintro (h | h)
        · rw [Nat.testBit_or, Bool.or_eq_true_iff] at h
          rcases h with h | h
          · exact Or.inl h
          · rw [Nat.testBit_two_pow, decide_eq_true_eq] at h
            refine Or.inr ⟨?_, ?_⟩
            · have hvp : (p : Int) = v := by
                rw [← h]
                exact Int.toNat_of_nonneg hv.1
              rw [hvp]
              exact List.mem_cons_self _ _
            · have : (p : Int) < (2 : Int) ^ n := by
                rw [← h, Int.toNat_of_nonneg hv.1]
                exact hv.2
              rw [← hcast] at this
              exact_mod_cast this
        · exact Or.inr ⟨List.mem_cons_of_mem _ h.1, h.2⟩
      · rintro (h | ⟨hmem, hp⟩)
        · left
          rw [Nat.testBit_or, Bool.or_eq_true_iff]
          exact Or.inl h
        · rcases List.mem_cons.mp hmem with hvv | hmem2
          · left
            rw [Nat.testBit_or, Bool.or_eq_true_iff]
            right
            rw [Nat.testBit_two_pow, decide_eq_true_eq, ← hvv]
            simp
          · exact Or.inr ⟨hmem2, hp⟩
    · rw [if_neg hv, ih]
      constructor
      · rintro (h | h)
        · exact Or.inl h
        · exact Or.inr ⟨List.mem_cons_of_mem _ h.1, h.2⟩
      · rintro (h | ⟨hmem, hp⟩)
        · exact Or.inl h
        · rcases List.mem_cons.mp hmem with hvv | hmem2
          · exfalso
            apply hv
            subst hvv
            constructor
            · exact Int.natCast_nonneg p
            · rw [← hcast]
              exact_mod_cast hp
          · exact Or.inr ⟨hmem2, hp⟩

theorem testBit_maskOfList (n : Nat) (vals : List Int) (p : Nat) :
    (maskOfList n vals).testBit p = true ↔ ((p : Int) ∈ vals ∧ p < 2 ^ n) := by
  rw [maskOfList, maskOfList_foldl]
  simp

theorem maskOfList_lt (n : Nat) (vals : List Int) : maskOfList n vals < 2 ^ 2 ^ n := by
  apply Nat.lt_pow_two_of_testBit
  intro i hi
  cases h : (maskOfList n vals).testBit i
  · rfl
  · have := (testBit_maskOfList n vals i).mp h
    omega

theorem make_ok_fields {n : Nat} {ones dcares : List Int} {f : PartialBooleanFunction}
    (h : PartialBooleanFunction.make n ones dcares = Except.ok f) :
    f.n = n ∧ f.ones_mask = maskOfList n ones ∧ f.dcares_mask = maskOfList n dcares ∧
      f.ones_mask &&& f.dcares_mask = 0 := by
  unfold PartialBooleanFunction.make at h
  by_cases hc : maskOfList n ones &&& maskOfList n dcares ≠ 0
  · rw [if_pos hc] at h
    exact absurd h (by simp)
  · rw [if_neg hc] at h
    injection h with h
    push_neg at hc
    subst h
    exact ⟨rfl, rfl, rfl, hc⟩

theorem make_error_iff (n : Nat) (ones dcares : List Int) :
    (∀ f, PartialBooleanFunction.make n ones dcares ≠ Except.ok f) ↔
      maskOfList n ones &&& maskOfList n dcares ≠ 0 := by
  unfold PartialBooleanFunction.make
  by_cases hc : maskOfList n ones &&& maskOfList n dcares ≠ 0
  · rw [if_pos hc]
    simp [hc]
  · rw [if_neg hc]
    push_neg at hc
    simp only [hc]
    constructor
    · intro h
      exact absurd rfl (h _)
    · intro h
      exact absurd rfl h

namespace MaximalIntervalsMinimizer

/-- seedIntervals builds the start intervals of find_all_max_intervals: one
    fully-specified singleton interval per set bit of the significant mask,
    least point first. -/
def seedIntervals (n : Nat) (sig : Nat) : List BooleanInterval :=
  (bitIndices sig).map (fun point => BooleanInterval.make n (2 ^ n - 1) point)

/-- BFSState carries the queue, the visited set (a duplicate-free list) and
    the collected maximal intervals of the breadth-first search. -/
structure BFSState where
  queue : List BooleanInterval
  visited : List BooleanInterval
  found : List BooleanInterval
  deriving Repr

/-- bfsStep performs one iteration of the while-queue loop of
    find_all_max_intervals. -/
def bfsStep (sig ones : Nat) (st : BFSState) : BFSState :=
  match st.queue with
  | [] => st
  | current :: rest =>
    if current ∈ st.visited then ⟨rest, st.visited, st.found⟩
    else if current.expand sig ≠ [] then
      ⟨rest ++ (current.expand sig).filter (fun e => decide (e ∉ st.visited ++ [current])),
        st.visited ++ [current], st.found⟩
    else if current.covers_mask ones ≠ 0 then
      ⟨rest, st.visited ++ [current], st.found ++ [current]⟩
    else ⟨rest, st.visited ++ [current], st.found⟩

/-- bfsRun iterates bfsStep until the queue empties or fuel runs out. -/
def bfsRun (sig ones : Nat) : Nat → BFSState → BFSState
  | 0, st => st
  | fuel + 1, st =>
    match st.queue with
    | [] => st
    | _ :: _ => bfsRun sig ones fuel (bfsStep sig ones st)

/-- removeSubsets mirrors the subset-elimination pass of
    find_all_max_intervals: position i survives when no other position j
    holds an interval that the i-th one is a subset of. -/
def removeSubsets (l : List BooleanInterval) : List BooleanInterval :=
  (l.enum.filter (fun it =>
    ! l.enum.any (fun ju => decide (ju.1 ≠ it.1) && it.2.is_subset_of ju.2))).map
    (fun it => it.2)

/-- insertBySize places t after every element of size at least t's: folded
    over the list this is the stable descending-size sort that
    unique_intervals.sort() performs under BooleanInterval.__lt__. -/
def insertBySize (t : BooleanInterval) : List BooleanInterval → List BooleanInterval
  | [] => [t]
  | u :: rest => if u.size < t.size then t :: u :: rest else u :: insertBySize t rest

/-- sortBySize is the stable sort by decreasing interval size. -/
def sortBySize (l : List BooleanInterval) : List BooleanInterval :=
  l.foldl (fun acc t => insertBySize t acc) []

/-- bfsFuel is enough iterations for the search loop to drain its queue
    (proved below). -/
def bfsFuel (n : Nat) (seeds : List BooleanInterval) : Nat :=
  seeds.length + 2 ^ n * 2 ^ n * (n + 1) + 1

/-- find_all_max_intervals mirrors
    MaximalIntervalsMinimizer.find_all_max_intervals. -/
def find_all_max_intervals (f : PartialBooleanFunction) : List BooleanInterval :=
  let seeds := seedIntervals f.n f.significant_mask
  let final := bfsRun f.significant_mask f.ones_mask (bfsFuel f.n seeds) ⟨seeds, [], []⟩
  sortBySize (removeSubsets final.found)

/-- coverage computes coverage_map[p]: the maximal intervals whose
    covers_mask(ones_mask) contains point p, in list order. -/
def coverage (all : List BooleanInterval) (f : PartialBooleanFunction) (p : Nat) :
    List BooleanInterval :=
  all.filter (fun t => (t.covers_mask f.ones_mask).testBit p)

/-- stage1Step processes one 1-point of the essential pass: a point covered by
    exactly one interval forces that interval into the accumulator. -/
def stage1Step (f : PartialBooleanFunction) (all : List BooleanInterval)
    (acc : List BooleanInterval × Nat) (p : Nat) : List BooleanInterval × Nat :=
  match coverage all f p with
  | [t] =>
    if t ∈ acc.1 then acc else (acc.1 ++ [t], acc.2 ||| t.covers_mask f.ones_mask)
  | _ => acc

/-- essentialStage1 is the essential pass of find_essential_intervals, walking
    the 1-points in increasing order as the insertion-ordered coverage_map
    does. -/
def essentialStage1 (f : PartialBooleanFunction) (all : List BooleanInterval) :
    List BooleanInterval × Nat :=
  (bitIndices f.ones_mask).foldl (stage1Step f all) ([], 0)

/-- pickBest is the inner selection loop of the greedy passes: the first
    non-excluded interval with the strictly largest covers_mask popcount over
    the target mask. -/
def pickBest (cands excluded : List BooleanInterval) (target : Nat) :
    Option BooleanInterval × Nat :=
  cands.foldl
    (fun best t =>
      if t ∈ excluded then best
      else if best.2 < popcount (t.covers_mask target) then
        (some t, popcount (t.covers_mask target))
      else best) (none, 0)

/-- essentialStage2 is the greedy completion loop of
    find_essential_intervals. -/
def essentialStage2 (f : PartialBooleanFunction) (all : List BooleanInterval) :
    Nat → List BooleanInterval × Nat → List BooleanInterval × Nat
  | 0, acc => acc
  | fuel + 1, acc =>
    if andNot f.ones_mask acc.2 = 0 then acc
    else
      match pickBest all acc.1 (andNot f.ones_mask acc.2) with
      | (some best, _) =>
        essentialStage2 f all fuel
          (acc.1 ++ [best], acc.2 ||| best.covers_mask f.ones_mask)
      | (none, _) => acc

/-- find_essential_intervals mirrors
    MaximalIntervalsMinimizer.find_essential_intervals. -/
def find_essential_intervals (f : PartialBooleanFunction) : List BooleanInterval :=
  let all := find_all_max_intervals f
  (essentialStage2 f all (popcount f.ones_mask + 1) (essentialStage1 f all)).1

/-- greedyLoop is the while-uncovered loop of _greedy_cover. -/
def greedyLoop (f : PartialBooleanFunction) (intervals : List BooleanInterval) :
    Nat → Nat → List BooleanInterval → List BooleanInterval
  | 0, _, result => result
  | fuel + 1, uncovered, result =>
    if uncovered = 0 then result
    else
      match pickBest intervals result uncovered with
      | (some best, bestCount) =>
        if 0 < bestCount then
          greedyLoop f intervals fuel
            (andNot uncovered (best.covers_mask f.ones_mask)) (result ++ [best])
        else result
      | (none, _) => result

/-- greedy_cover mirrors MaximalIntervalsMinimizer._greedy_cover. -/
def greedy_cover (f : PartialBooleanFunction) (intervals : List BooleanInterval) :
    List BooleanInterval :=
  greedyLoop f intervals (popcount f.ones_mask + 1) f.ones_mask []

/-- minimize mirrors MaximalIntervalsMinimizer.minimize (the printing is
    dropped; the selected interval list is the result). -/
def minimize (f : PartialBooleanFunction) : List BooleanInterval :=
  let maxIntervals := find_all_max_intervals f
  let essentials := find_essential_intervals f
  let covered := essentials.foldl (fun m t => m ||| t.covers_mask f.ones_mask) 0
  if covered = f.ones_mask then essentials else greedy_cover f maxIntervals

/-- intervalStr mirrors BooleanInterval.__str__. -/
def intervalStr (t : BooleanInterval) : String :=
  if t.mask = 0 then "1"
  else
    " & ".intercalate
      ((List.range t.n).reverse.filterMap (fun i =>
        if t.mask.testBit i then
          some (if t.value.testBit i then "x" ++ toString (t.n - i)
            else "¬x" ++ toString (t.n - i))
        else none))

/-- dnfLoop is the term-collection loop of get_minimal_dnf, with the early
    return on the constant-1 term. -/
def dnfLoop : List BooleanInterval → List String → String
  | [], terms => " ∨ ".intercalate terms
  | t :: rest, terms =>
    if intervalStr t = "1" then "1"
    else dnfLoop rest (terms ++ ["(" ++ intervalStr t ++ ")"])

/-- get_minimal_dnf mirrors MaximalIntervalsMinimizer.get_minimal_dnf. -/
def get_minimal_dnf (f : PartialBooleanFunction) : String :=
  match minimize f with
  | [] => "0"
  | l => dnfLoop l []

end MaximalIntervalsMinimizer

theorem nodup_append_singleton {α : Type} {l : List α} {a : α}
    (h : l.Nodup) (ha : a ∉ l) : (l ++ [a]).Nodup := by
  rw [List.nodup_append]
  refine ⟨h, List.nodup_singleton a, ?_⟩
  intro x hx hmem
  simp only [List.mem_singleton] at hmem
  subst hmem
  exact ha hx

theorem expand_length_le (t : BooleanInterval) (allowed : Nat) :
    (t.expand allowed).length ≤ popcount t.mask := by
  unfold BooleanInterval.expand
  calc (List.filterMap _ (bitIndices t.mask)).length ≤ (bitIndices t.mask).length :=
        List.length_filterMap_le _ _
    _ = popcount t.mask := length_bitIndices _

theorem wf_list_length_le {n : Nat} {l : List BooleanInterval}
    (hwf : ∀ t ∈ l, BooleanInterval.WFn n t) (hnd : l.Nodup) :
    l.length ≤ 2 ^ n * 2 ^ n := by
  classical
  have hmap : (l.map (fun t => t.mask * 2 ^ n + t.value)).Nodup := by
    apply List.Nodup.map_on ?_ hnd
    intro a ha b hb heq
    have hwa := hwf a ha
    have hwb := hwf b hb
    have hav : a.value < 2 ^ n := by
      have h1 : a.value ≤ a.mask := by
        rw [← hwa.2.2]
        exact Nat.and_le_right
      exact Nat.lt_of_le_of_lt h1 hwa.2.1
    have hbv : b.value < 2 ^ n := by
      have h1 : b.value ≤ b.mask := by
        rw [← hwb.2.2]
        exact Nat.and_le_right
      exact Nat.lt_of_le_of_lt h1 hwb.2.1
    have hkey : ∀ x y : BooleanInterval, x.value < 2 ^ n → x.mask < y.mask →
        x.mask * 2 ^ n + x.value ≠ y.mask * 2 ^ n + y.value := by
      intro x y hxv hxy heq2
      have h2 : (x.mask + 1) * 2 ^ n ≤ y.mask * 2 ^ n := Nat.mul_le_mul_right _ hxy
      have h3 : (x.mask + 1) * 2 ^ n = x.mask * 2 ^ n + 2 ^ n := by ring
      omega
    have hmask : a.mask = b.mask := by
      by_contra hne
      rcases Nat.lt_or_ge a.mask b.mask with hlt | hge
      · exact hkey a b hav hlt heq
      · have hlt2 : b.mask < a.mask := by omega
        exact hkey b a hbv hlt2 heq.symm
    have hvalue : a.value = b.value := by
      rw [hmask] at heq
      omega
    have hn2 : a.n = b.n := by rw [hwa.1, hwb.1]
    cases a
    cases b
    simp only [BooleanInterval.mk.injEq]
    exact ⟨hn2, hmask, hvalue⟩
  have hlt : ∀ x ∈ l.map (fun t => t.mask * 2 ^ n + t.value), x < 2 ^ n * 2 ^ n := by
    intro x hx
    rw [List.mem_map] at hx
    obtain ⟨t, ht, rfl⟩ := hx
    have hw := hwf t ht
    have hv : t.value < 2 ^ n := by
      have h1 : t.value ≤ t.mask := by
        rw [← hw.2.2]
        exact Nat.and_le_right
      exact Nat.lt_of_le_of_lt h1 hw.2.1
    have hm : t.mask ≤ 2 ^ n - 1 := by
      have := hw.2.1
      omega
    have hpos : 0 < 2 ^ n := Nat.pos_pow_of_pos _ (by omega)
    have hx : (2 ^ n - 1) * 2 ^ n + 2 ^ n = 2 ^ n * 2 ^ n := by
      have h1 : (2 ^ n - 1) + 1 = 2 ^ n := by omega
      calc (2 ^ n - 1) * 2 ^ n + 2 ^ n = ((2 ^ n - 1) + 1) * 2 ^ n := by ring
        _ = 2 ^ n * 2 ^ n := by rw [h1]
    calc t.mask * 2 ^ n + t.value ≤ (2 ^ n - 1) * 2 ^ n + (2 ^ n - 1) :=
          Nat.add_le_add (Nat.mul_le_mul_right _ hm) (by omega)
      _ < 2 ^ n * 2 ^ n := by omega
  have hsub : (l.map (fun t => t.mask * 2 ^ n + t.value)).toFinset ⊆
      Finset.range (2 ^ n * 2 ^ n) := by
    intro x hx
    rw [List.mem_toFinset] at hx
    rw [Finset.mem_range]
    exact hlt x hx
  have hcard := Finset.card_le_card hsub
  rw [List.toFinset_card_of_nodup hmap, Finset.card_range, List.length_map] at hcard
  exact hcard

namespace MaximalIntervalsMinimizer

theorem bfsStep_nil {sig ones : Nat} {v fnd : List BooleanInterval} :
    bfsStep sig ones ⟨[], v, fnd⟩ = ⟨[], v, fnd⟩ := rfl

theorem bfsStep_skip {sig ones : Nat} {current : BooleanInterval}
    {rest v fnd : List BooleanInterval} (h : current ∈ v) :
    bfsStep sig ones ⟨current :: rest, v, fnd⟩ = ⟨rest, v, fnd⟩ := by
  simp only [bfsStep]
  rw [if_pos h]

theorem bfsStep_expand {sig ones : Nat} {current : BooleanInterval}
    {rest v fnd : List BooleanInterval} (h : current ∉ v)
    (hexp : current.expand sig ≠ []) :
    bfsStep sig ones ⟨current :: rest, v, fnd⟩ =
      ⟨rest ++ (current.expand sig).filter (fun e => decide (e ∉ v ++ [current])),
        v ++ [current], fnd⟩ := by
  simp only [bfsStep]
  rw [if_neg h, if_pos hexp]

theorem bfsStep_maximal {sig ones : Nat} {current : BooleanInterval}
    {rest v fnd : List BooleanInterval} (h : current ∉ v)
    (hexp : ¬ current.expand sig ≠ []) (hcov : current.covers_mask ones ≠ 0) :
    bfsStep sig ones ⟨current :: rest, v, fnd⟩ =
      ⟨rest, v ++ [current], fnd ++ [current]⟩ := by
  simp only [bfsStep]
  rw [if_neg h, if_neg hexp, if_pos hcov]

theorem bfsStep_drop {sig ones : Nat} {current : BooleanInterval}
    {rest v fnd : List BooleanInterval} (h : current ∉ v)
    (hexp : ¬ current.expand sig ≠ []) (hcov : ¬ current.covers_mask ones ≠ 0) :
    bfsStep sig ones ⟨current :: rest, v, fnd⟩ = ⟨rest, v ++ [current], fnd⟩ := by
  simp only [bfsStep]
  rw [if_neg h, if_neg hexp, if_neg hcov]

theorem mem_filter_not_vis {exps vis : List BooleanInterval} {e : BooleanInterval} :
    e ∈ exps.filter (fun x => decide (x ∉ vis)) ↔ e ∈ exps ∧ e ∉ vis := by
  rw [List.mem_filter]
  simp

/-- BFSInv collects the invariants of the breadth-first search loop of
    find_all_max_intervals: well-formedness and soundness (all reachable
    intervals stay inside the significant region), the visited list is
    duplicate-free, found holds exactly the recorded maximal intervals, and
    every required 1-point keeps a cover in found, in the queue, or further
    down an expansion chain (the chase component, measured by mask
    popcount). -/
structure BFSInv (n sig ones : Nat) (st : BFSState) : Prop where
  wfQ : ∀ t ∈ st.queue, BooleanInterval.WFn n t
  wfV : ∀ t ∈ st.visited, BooleanInterval.WFn n t
  ndV : st.visited.Nodup
  fndSubV : ∀ t ∈ st.found, t ∈ st.visited
  ndF : st.found.Nodup
  maxF : ∀ t ∈ st.found, t.expand sig = [] ∧ t.covers_mask ones ≠ 0
  soundQ : ∀ t ∈ st.queue, ∀ p, p < 2 ^ n → t.covers_point p = true →
    sig.testBit p = true
  soundV : ∀ t ∈ st.visited, ∀ p, p < 2 ^ n → t.covers_point p = true →
    sig.testBit p = true
  resV : ∀ t ∈ st.visited, t.expand sig = [] → t.covers_mask ones ≠ 0 → t ∈ st.found
  chase : ∀ t ∈ st.visited, ∀ p, ones.testBit p = true → t.covers_point p = true →
    (∃ u ∈ st.found, u.covers_point p = true) ∨
    (∃ u ∈ st.queue, u.covers_point p = true ∧ popcount u.mask < popcount t.mask) ∨
    (∃ u ∈ st.visited, u.covers_point p = true ∧ popcount u.mask < popcount t.mask)
  reach : ∀ p, ones.testBit p = true →
    (∃ u ∈ st.found, u.covers_point p = true) ∨
    (∃ u ∈ st.queue, u.covers_point p = true) ∨
    (∃ u ∈ st.visited, u.covers_point p = true)

theorem bfsStep_inv {n sig ones : Nat} (hones : ones < 2 ^ 2 ^ n)
    {st : BFSState} (inv : BFSInv n sig ones st) :
    BFSInv n sig ones (bfsStep sig ones st) := by
  obtain ⟨q, v, fnd⟩ := st
  cases q with
  | nil =>
    rw [bfsStep_nil]
    exact inv
  | cons current rest =>
    have hwcur : BooleanInterval.WFn n current := inv.wfQ current (List.mem_cons_self _ _)
    by_cases hvis : current ∈ v
    · rw [bfsStep_skip hvis]
      refine ⟨?_, inv.wfV, inv.ndV, inv.fndSubV, inv.ndF, inv.maxF, ?_, inv.soundV,
        inv.resV, ?_, ?_⟩
      · intro t ht
        exact inv.wfQ t (List.mem_cons_of_mem _ ht)
      · intro t ht
        exact inv.soundQ t (List.mem_cons_of_mem _ ht)
      · intro t ht p hp hc
        rcases inv.chase t ht p hp hc with h | ⟨u, hu, huc, hlt⟩ | h
        · exact Or.inl h
        · rcases List.mem_cons.mp hu with heq | hu2
          · subst heq
            exact Or.inr (Or.inr ⟨u, hvis, huc, hlt⟩)
          · exact Or.inr (Or.inl ⟨u, hu2, huc, hlt⟩)
        · exact Or.inr (Or.inr h)
      · intro p hp
        rcases inv.reach p hp with h | ⟨u, hu, huc⟩ | h
        · exact Or.inl h
        · rcases List.mem_cons.mp hu with heq | hu2
          · subst heq
            exact Or.inr (Or.inr ⟨u, hvis, huc⟩)
          · exact Or.inr (Or.inl ⟨u, hu2, huc⟩)
        · exact Or.inr (Or.inr h)
    · have hndV' : (v ++ [current]).Nodup := nodup_append_singleton inv.ndV hvis
      have hwV' : ∀ t ∈ v ++ [current], BooleanInterval.WFn n t := by
        intro t ht
        rcases List.mem_append.mp ht with h | h
        · exact inv.wfV t h
        · rw [List.mem_singleton] at h
          subst h
          exact hwcur
      have hsoundV' : ∀ t ∈ v ++ [current], ∀ p, p < 2 ^ n → t.covers_point p = true →
          sig.testBit p = true := by
        intro t ht p hp hc
        rcases List.mem_append.mp ht with h | h
        · exact inv.soundV t h p hp hc
        · rw [List.mem_singleton] at h
          subst h
          exact inv.soundQ t (List.mem_cons_self _ _) p hp hc
      have hcurV' : current ∈ v ++ [current] :=
        List.mem_append_right _ (List.mem_singleton_self _)
      by_cases hexp : current.expand sig ≠ []
      · rw [bfsStep_expand hvis hexp]
        have hexp_spec : ∀ e ∈ current.expand sig, BooleanInterval.WFn n e ∧
            popcount e.mask + 1 = popcount current.mask ∧
            (∀ p, current.covers_point p = true → e.covers_point p = true) ∧
            (∀ p, p < 2 ^ n → e.covers_point p = true → current.covers_point p = false →
              sig.testBit p = true) := by
          intro e he
          obtain ⟨hw, _, hpc, hcov2, hadm⟩ := expand_mem_spec hwcur he
          exact ⟨hw, hpc, hcov2, hadm⟩
        refine ⟨?_, hwV', hndV', ?_, inv.ndF, inv.maxF, ?_, hsoundV', ?_, ?_, ?_⟩
        · intro t ht
          rcases List.mem_append.mp ht with h | h
          · exact inv.wfQ t (List.mem_cons_of_mem _ h)
          · exact (hexp_spec t (mem_filter_not_vis.mp h).1).1
        · intro t ht
          exact List.mem_append_left _ (inv.fndSubV t ht)
        · intro t ht p hp hc
          rcases List.mem_append.mp ht with h | h
          · exact inv.soundQ t (List.mem_cons_of_mem _ h) p hp hc
          · obtain ⟨he, _⟩ := mem_filter_not_vis.mp h
            obtain ⟨_, _, _, hadm⟩ := hexp_spec t he
            cases hcc : current.covers_point p
            · exact hadm p hp hc hcc
            · exact inv.soundQ current (List.mem_cons_self _ _) p hp hcc
        · intro t ht hm hc
          rcases List.mem_append.mp ht with h | h
          · exact inv.resV t h hm hc
          · rw [List.mem_singleton] at h
            subst h
            exact absurd hm hexp
        · intro t ht p hp hc
          rcases List.mem_append.mp ht with h | h
          · rcases inv.chase t h p hp hc with hh | ⟨u, hu, huc, hlt⟩ | ⟨u, hu, huc, hlt⟩
            · exact Or.inl hh
            · rcases List.mem_cons.mp hu with heq | hu2
              · subst heq
                exact Or.inr (Or.inr ⟨u, hcurV', huc, hlt⟩)
              · exact Or.inr (Or.inl ⟨u, List.mem_append_left _ hu2, huc, hlt⟩)
            · exact Or.inr (Or.inr ⟨u, List.mem_append_left _ hu, huc, hlt⟩)
          · rw [List.mem_singleton] at h
            subst h
            obtain ⟨e, he⟩ := List.exists_mem_of_ne_nil _ hexp
            obtain ⟨_, hpc, hcov2, _⟩ := hexp_spec e he
            have hec : e.covers_point p = true := hcov2 p hc
            by_cases hev : e ∈ v ++ [t]
            · exact Or.inr (Or.inr ⟨e, hev, hec, by omega⟩)
            · refine Or.inr (Or.inl ⟨e, ?_, hec, by omega⟩)
              exact List.mem_append_right _ (mem_filter_not_vis.mpr ⟨he, hev⟩)
        · intro p hp
          rcases inv.reach p hp with hh | ⟨u, hu, huc⟩ | ⟨u, hu, huc⟩
          · exact Or.inl hh
          · rcases List.mem_cons.mp hu with heq | hu2
            · subst heq
              exact Or.inr (Or.inr ⟨u, hcurV', huc⟩)
            · exact Or.inr (Or.inl ⟨u, List.mem_append_left _ hu2, huc⟩)
          · exact Or.inr (Or.inr ⟨u, List.mem_append_left _ hu, huc⟩)
      · by_cases hcov : current.covers_mask ones ≠ 0
        · rw [bfsStep_maximal hvis hexp hcov]
          push_neg at hexp
          have hcurF : current ∉ fnd := fun h => hvis (inv.fndSubV current h)
          have hndF' : (fnd ++ [current]).Nodup := nodup_append_singleton inv.ndF hcurF
          refine ⟨?_, hwV', hndV', ?_, hndF', ?_, ?_, hsoundV', ?_, ?_, ?_⟩
          · intro t ht
            exact inv.wfQ t (List.mem_cons_of_mem _ ht)
          · intro t ht
            rcases List.mem_append.mp ht with h | h
            · exact List.mem_append_left _ (inv.fndSubV t h)
            · exact List.mem_append_right _ h
          · intro t ht
            rcases List.mem_append.mp ht with h | h
            · exact inv.maxF t h
            · rw [List.mem_singleton] at h
              subst h
              exact ⟨hexp, hcov⟩
          · intro t ht p hp hc
            exact inv.soundQ t (List.mem_cons_of_mem _ ht) p hp hc
          · intro t ht hm hc
            rcases List.mem_append.mp ht with h | h
            · exact List.mem_append_left _ (inv.resV t h hm hc)
            · exact List.mem_append_right _ h
          · intro t ht p hp hc
            rcases List.mem_append.mp ht with h | h
            · rcases inv.chase t h p hp hc with ⟨w, hw, hwc⟩ | ⟨u, hu, huc, hlt⟩ |
                ⟨u, hu, huc, hlt⟩
              · exact Or.inl ⟨w, List.mem_append_left _ hw, hwc⟩
              · rcases List.mem_cons.mp hu with heq | hu2
                · subst heq
                  exact Or.inr (Or.inr ⟨u, hcurV', huc, hlt⟩)
                · exact Or.inr (Or.inl ⟨u, hu2, huc, hlt⟩)
              · exact Or.inr (Or.inr ⟨u, List.mem_append_left _ hu, huc, hlt⟩)
            · rw [List.mem_singleton] at h
              subst h
              exact Or.inl ⟨t, List.mem_append_right _ (List.mem_singleton_self _), hc⟩
          · intro p hp
            rcases inv.reach p hp with ⟨w, hw, hwc⟩ | ⟨u, hu, huc⟩ | ⟨u, hu, huc⟩
            · exact Or.inl ⟨w, List.mem_append_left _ hw, hwc⟩
            · rcases List.mem_cons.mp hu with heq | hu2
              · subst heq
                exact Or.inr (Or.inr ⟨u, hcurV', huc⟩)
              · exact Or.inr (Or.inl ⟨u, hu2, huc⟩)
            · exact Or.inr (Or.inr ⟨u, List.mem_append_left _ hu, huc⟩)
        · rw [bfsStep_drop hvis hexp hcov]
          push_neg at hexp hcov
          refine ⟨?_, hwV', hndV', ?_, inv.ndF, inv.maxF, ?_, hsoundV', ?_, ?_, ?_⟩
          · intro t ht
            exact inv.wfQ t (List.mem_cons_of_mem _ ht)
          · intro t ht
            exact List.mem_append_left _ (inv.fndSubV t ht)
          · intro t ht p hp hc
            exact inv.soundQ t (List.mem_cons_of_mem _ ht) p hp hc
          · intro t ht hm hc
            rcases List.mem_append.mp ht with h | h
            · exact inv.resV t h hm hc
            · rw [List.mem_singleton] at h
              subst h
              exact absurd hcov hc
          · intro t ht p hp hc
            rcases List.mem_append.mp ht with h | h
            · rcases inv.chase t h p hp hc with hh | ⟨u, hu, huc, hlt⟩ | ⟨u, hu, huc, hlt⟩
              · exact Or.inl hh
              · rcases List.mem_cons.mp hu with heq | hu2
                · subst heq
                  exact Or.inr (Or.inr ⟨u, hcurV', huc, hlt⟩)
                · exact Or.inr (Or.inl ⟨u, hu2, huc, hlt⟩)
              · exact Or.inr (Or.inr ⟨u, List.mem_append_left _ hu, huc, hlt⟩)
            · rw [List.mem_singleton] at h
              subst h
              have hne := (covers_mask_ne_zero_iff hwcur hones).mpr ⟨p, hp, hc⟩
              exact absurd hcov hne
          · intro p hp
            rcases inv.reach p hp with hh | ⟨u, hu, huc⟩ | ⟨u, hu, huc⟩
            · exact Or.inl hh
            · rcases List.mem_cons.mp hu with heq | hu2
              · subst heq
                exact Or.inr (Or.inr ⟨u, hcurV', huc⟩)
              · exact Or.inr (Or.inl ⟨u, hu2, huc⟩)
            · exact Or.inr (Or.inr ⟨u, List.mem_append_left _ hu, huc⟩)

theorem bfsRun_inv {n sig ones : Nat} (hones : ones < 2 ^ 2 ^ n) :
    ∀ (fuel : Nat) {st : BFSState}, BFSInv n sig ones st →
      BFSInv n sig ones (bfsRun sig ones fuel st) := by
  intro fuel
  induction fuel with
  | zero =>
    intro st inv
    exact inv
  | succ fuel ih =>
    intro st inv
    obtain ⟨q, v, fnd⟩ := st
    cases q with
    | nil => exact inv
    | cons a r => exact ih (bfsStep_inv hones inv)

theorem bfsInv_init {n sig ones : Nat} (hsig : sig < 2 ^ 2 ^ n)
    (hsub : ∀ i, ones.testBit i = true → sig.testBit i = true) :
    BFSInv n sig ones ⟨seedIntervals n sig, [], []⟩ := by
  have hseed_fields : ∀ q : Nat, q < 2 ^ n →
      (BooleanInterval.make n (2 ^ n - 1) q).mask = 2 ^ n - 1 ∧
      (BooleanInterval.make n (2 ^ n - 1) q).value = q := by
    intro q hqlt
    constructor
    · show (2 ^ n - 1) &&& (2 ^ n - 1) = 2 ^ n - 1
      exact Nat.and_self _
    · show q &&& ((2 ^ n - 1) &&& (2 ^ n - 1)) = q
      rw [Nat.and_self]
      exact Nat.and_pow_two_sub_one_of_lt_two_pow hqlt
  have hseed_wf : ∀ t ∈ seedIntervals n sig, BooleanInterval.WFn n t := by
    intro t ht
    rw [seedIntervals, List.mem_map] at ht
    obtain ⟨q, hq, rfl⟩ := ht
    exact make_WFn _ _ _
  have hseed_char : ∀ t ∈ seedIntervals n sig, ∃ q, sig.testBit q = true ∧
      (∀ p, p < 2 ^ n → (t.covers_point p = true ↔ p = q)) := by
    intro t ht
    rw [seedIntervals, List.mem_map] at ht
    obtain ⟨q, hq, rfl⟩ := ht
    rw [mem_bitIndices] at hq
    have hqlt : q < 2 ^ n := testBit_imp_lt hsig hq
    obtain ⟨hmq, hvq⟩ := hseed_fields q hqlt
    refine ⟨q, hq, ?_⟩
    intro p hp
    rw [covers_point_iff, hmq, hvq, Nat.and_pow_two_sub_one_of_lt_two_pow hp]
  refine ⟨hseed_wf, by simp, List.nodup_nil, by simp, List.nodup_nil, by simp, ?_,
    by simp, by simp, by simp, ?_⟩
  · intro t ht p hp hc
    obtain ⟨q, hq, hiff⟩ := hseed_char t ht
    have hpq := (hiff p hp).mp hc
    subst hpq
    exact hq
  · intro p hp
    have hps := hsub p hp
    have hplt : p < 2 ^ n := testBit_imp_lt hsig hps
    obtain ⟨hmq, hvq⟩ := hseed_fields p hplt
    refine Or.inr (Or.inl ⟨BooleanInterval.make n (2 ^ n - 1) p, ?_, ?_⟩)
    · rw [seedIntervals, List.mem_map]
      exact ⟨p, mem_bitIndices.mpr hps, rfl⟩
    · rw [covers_point_iff, hmq, hvq, Nat.and_pow_two_sub_one_of_lt_two_pow hplt]

/-- bfsPhi is the termination measure of the search loop. -/
def bfsPhi (n : Nat) (st : BFSState) : Nat :=
  st.queue.length + (2 ^ n * 2 ^ n - st.visited.length) * (n + 1)

theorem phi_arith (B L V n : Nat) (hv : V + 1 ≤ B) (hL : L ≤ n) :
    L + (B - (V + 1)) * (n + 1) < 1 + (B - V) * (n + 1) := by
  have h1 : B - V = (B - (V + 1)) + 1 := by omega
  have h2 : (B - V) * (n + 1) = (B - (V + 1)) * (n + 1) + (n + 1) := by
    rw [h1, Nat.add_mul, Nat.one_mul]
  omega

theorem bfsStep_phi {n sig ones : Nat} {st : BFSState}
    (inv : BFSInv n sig ones st) (hne : st.queue ≠ []) :
    bfsPhi n (bfsStep sig ones st) < bfsPhi n st := by
  obtain ⟨q, v, fnd⟩ := st
  cases q with
  | nil => exact absurd rfl hne
  | cons current rest =>
    have hwcur : BooleanInterval.WFn n current := inv.wfQ current (List.mem_cons_self _ _)
    by_cases hvis : current ∈ v
    · rw [bfsStep_skip hvis]
      show rest.length + (2 ^ n * 2 ^ n - v.length) * (n + 1) <
        (current :: rest).length + (2 ^ n * 2 ^ n - v.length) * (n + 1)
      rw [List.length_cons]
      omega
    · have hwV' : ∀ t ∈ v ++ [current], BooleanInterval.WFn n t := by
        intro t ht
        rcases List.mem_append.mp ht with h | h
        · exact inv.wfV t h
        · rw [List.mem_singleton] at h
          subst h
          exact hwcur
      have hndV' : (v ++ [current]).Nodup := nodup_append_singleton inv.ndV hvis
      have hvlen : v.length + 1 ≤ 2 ^ n * 2 ^ n := by
        have h := wf_list_length_le hwV' hndV'
        simpa using h
      by_cases hexp : current.expand sig ≠ []
      · rw [bfsStep_expand hvis hexp]
        have hqlen : ((current.expand sig).filter
            (fun e => decide (e ∉ v ++ [current]))).length ≤ n := by
          have h1 : ((current.expand sig).filter
              (fun e => decide (e ∉ v ++ [current]))).length ≤
              (current.expand sig).length := List.length_filter_le _ _
          have h2 := expand_length_le current sig
          have h3 := popcount_le_of_lt_two_pow n hwcur.2.1
          omega
        show (rest ++ (current.expand sig).filter
            (fun e => decide (e ∉ v ++ [current]))).length +
            (2 ^ n * 2 ^ n - (v ++ [current]).length) * (n + 1) <
          (current :: rest).length + (2 ^ n * 2 ^ n - v.length) * (n + 1)
        rw [List.length_append, List.length_cons, List.length_append,
          List.length_singleton]
        have harith := phi_arith (2 ^ n * 2 ^ n)
          (((current.expand sig).filter (fun e => decide (e ∉ v ++ [current]))).length)
          v.length n hvlen hqlen
        omega
      · have harith := phi_arith (2 ^ n * 2 ^ n) 0 v.length n hvlen (by omega)
        have hgoal : rest.length + (2 ^ n * 2 ^ n - (v ++ [current]).length) * (n + 1) <
            (current :: rest).length + (2 ^ n * 2 ^ n - v.length) * (n + 1) := by
          rw [List.length_cons, List.length_append, List.length_singleton]
          omega
        by_cases hcov : current.covers_mask ones ≠ 0
        · rw [bfsStep_maximal hvis hexp hcov]
          exact hgoal
        · rw [bfsStep_drop hvis hexp hcov]
          exact hgoal

theorem bfsRun_drain {n sig ones : Nat} (hones : ones < 2 ^ 2 ^ n) :
    ∀ (fuel : Nat) {st : BFSState}, BFSInv n sig ones st → bfsPhi n st < fuel →
      (bfsRun sig ones fuel st).queue = [] := by
  intro fuel
  induction fuel with
  | zero =>
    intro st _ h
    omega
  | succ fuel ih =>
    intro st inv hphi
    obtain ⟨q, v, fnd⟩ := st
    cases q with
    | nil => rfl
    | cons a r =>
      have hne : (⟨a :: r, v, fnd⟩ : BFSState).queue ≠ [] := by simp
      have hstep := bfsStep_phi inv hne
      exact ih (bfsStep_inv hones inv) (by omega)

theorem found_covers {n sig ones : Nat} {st : BFSState}
    (inv : BFSInv n sig ones st) (hq : st.queue = []) {p : Nat}
    (hp : ones.testBit p = true) : ∃ u ∈ st.found, u.covers_point p = true := by
  have key : ∀ c, ∀ t ∈ st.visited, popcount t.mask ≤ c → t.covers_point p = true →
      ∃ u ∈ st.found, u.covers_point p = true := by
    intro c
    induction c with
    | zero =>
      intro t ht hle hc
      rcases inv.chase t ht p hp hc with h | ⟨u, hu, _, _⟩ | ⟨u, hu, _, hlt⟩
      · exact h
      · rw [hq] at hu
        simp at hu
      · omega
    | succ c ih =>
      intro t ht hle hc
      rcases inv.chase t ht p hp hc with h | ⟨u, hu, _, _⟩ | ⟨u, hu, huc, hlt⟩
      · exact h
      · rw [hq] at hu
        simp at hu
      · exact ih u hu (by omega) huc
  rcases inv.reach p hp with h | ⟨u, hu, huc⟩ | ⟨u, hu, huc⟩
  · exact h
  · rw [hq] at hu
    simp at hu
  · exact key (popcount u.mask) u hu (Nat.le_refl _) huc

theorem removeSubsets_mem {l : List BooleanInterval} {u : BooleanInterval}
    (h : u ∈ removeSubsets l) : u ∈ l := by
  unfold removeSubsets at h
  rw [List.mem_map] at h
  obtain ⟨it, hit, rfl⟩ := h
  have hmem := List.mem_of_mem_filter hit
  obtain ⟨i, x⟩ := it
  rw [List.mk_mem_enum_iff_getElem?] at hmem
  exact List.getElem?_mem hmem

theorem mem_removeSubsets_iff {l : List BooleanInterval} (hnd : l.Nodup)
    {t : BooleanInterval} :
    t ∈ removeSubsets l ↔
      t ∈ l ∧ ∀ u ∈ l, u ≠ t → t.is_subset_of u = false := by
  unfold removeSubsets
  rw [List.mem_map]
  constructor
  · rintro ⟨⟨i, x⟩, hit, rfl⟩
    rw [List.mem_filter] at hit
    obtain ⟨henum, hcond⟩ := hit
    rw [List.mk_mem_enum_iff_getElem?] at henum
    refine ⟨List.getElem?_mem henum, ?_⟩
    intro u hu hne
    obtain ⟨j, hj⟩ := List.mem_iff_getElem?.mp hu
    have hij : j ≠ i := by
      intro he
      subst he
      rw [hj] at henum
      exact hne (Option.some.inj henum)
    rw [Bool.not_eq_true'] at hcond
    have hfalse := List.any_eq_false.mp hcond (j, u)
      (List.mk_mem_enum_iff_getElem?.mpr hj)
    simp only [decide_eq_true_eq, Bool.and_eq_true_iff, not_and] at hfalse
    cases hsub : BooleanInterval.is_subset_of x u
    · rfl
    · exact absurd hsub (by simpa [hij] using hfalse)
  · rintro ⟨htl, hcond⟩
    obtain ⟨i, hi⟩ := List.mem_iff_getElem?.mp htl
    refine ⟨(i, t), ?_, rfl⟩
    rw [List.mem_filter]
    refine ⟨List.mk_mem_enum_iff_getElem?.mpr hi, ?_⟩
    rw [Bool.not_eq_true']
    rw [List.any_eq_false]
    rintro ⟨j, u⟩ hju
    rw [List.mk_mem_enum_iff_getElem?] at hju
    by_cases hji : j = i
    · subst hji
      rw [hi] at hju
      have : u = t := (Option.some.inj hju).symm
      subst this
      simp
    · have hut : u ≠ t := by
        intro he
        subst he
        have hlen : j < l.length := by
          by_contra hc
          rw [List.getElem?_eq_none (by omega)] at hju
          exact absurd hju (by simp)
        apply hji
        apply List.getElem?_inj hlen hnd
        rw [hju, hi]
      have hsub := hcond u (List.getElem?_mem hju) hut
      simp [hsub]

end MaximalIntervalsMinimizer

theorem popcount_strict_subset {a b : Nat} (hab : a &&& b = a) (hne : a ≠ b) :
    popcount a < popcount b := by
  have hsub : ∀ i, a.testBit i = true → b.testBit i = true := by
    intro i hi
    have h := congrArg (fun x => Nat.testBit x i) hab
    simp only [Nat.testBit_and] at h
    rw [hi] at h
    simpa using h.symm
  have hbd : b = a ||| Nat.ldiff b a := by
    apply Nat.eq_of_testBit_eq
    intro i
    rw [Nat.testBit_or, Nat.testBit_ldiff]
    cases hai : a.testBit i
    · simp
    · simp [hsub i hai]
  have hdisj : a &&& Nat.ldiff b a = 0 := by
    apply Nat.eq_of_testBit_eq
    intro i
    rw [Nat.testBit_and, Nat.testBit_ldiff, Nat.zero_testBit]
    cases hai : a.testBit i <;> simp [hai]
  have hdne : Nat.ldiff b a ≠ 0 := by
    intro h0
    apply hne
    apply Nat.eq_of_testBit_eq
    intro i
    have hz := ldiff_eq_zero_iff.mp h0 i
    cases hai : a.testBit i
    · cases hbi : b.testBit i
      · rfl
      · have := hz hbi
        rw [hai] at this
        exact absurd this (by simp)
    · simp [hai, hsub i hai]
  have hpc := popcount_lor_disjoint hdisj
  rw [← hbd] at hpc
  have hpos := popcount_pos hdne
  omega

theorem subset_strict_popcount {a b : BooleanInterval} {n : Nat}
    (ha : BooleanInterval.WFn n a) (hb : BooleanInterval.WFn n b)
    (hsub : a.is_subset_of b = true) (hne : b ≠ a) :
    popcount b.mask < popcount a.mask := by
  simp only [BooleanInterval.is_subset_of, Bool.and_eq_true_iff, beq_iff_eq] at hsub
  obtain ⟨hm, hv⟩ := hsub
  have hsubbits : b.mask &&& a.mask = b.mask := by
    rw [Nat.and_comm]
    exact hm
  have hmne : b.mask ≠ a.mask := by
    intro he
    apply hne
    have hveq : b.value = a.value := by
      calc b.value = a.value &&& b.mask := hv.symm
        _ = a.value &&& a.mask := by rw [he]
        _ = a.value := ha.2.2
    have hneq : b.n = a.n := by rw [hb.1, ha.1]
    cases a
    cases b
    simp only [BooleanInterval.mk.injEq]
    exact ⟨hneq, he, hveq⟩
  exact popcount_strict_subset hsubbits hmne

namespace MaximalIntervalsMinimizer

theorem removeSubsets_complete {n : Nat} {l : List BooleanInterval}
    (hwf : ∀ t ∈ l, BooleanInterval.WFn n t) (hnd : l.Nodup) :
    ∀ t ∈ l, ∃ u ∈ removeSubsets l, t.is_subset_of u = true := by
  have key : ∀ c, ∀ t ∈ l, popcount t.mask ≤ c →
      ∃ u ∈ removeSubsets l, t.is_subset_of u = true := by
    intro c
    induction c with
    | zero =>
      intro t ht hle
      by_cases hkeep : ∀ u ∈ l, u ≠ t → t.is_subset_of u = false
      · exact ⟨t, (mem_removeSubsets_iff hnd).mpr ⟨ht, hkeep⟩,
          is_subset_of_refl (hwf t ht)⟩
      · push_neg at hkeep
        obtain ⟨u, hu, hne, hsubne⟩ := hkeep
        have hsub : t.is_subset_of u = true := by
          cases h : t.is_subset_of u
          · exact absurd h hsubne
          · rfl
        have hlt := subset_strict_popcount (hwf t ht) (hwf u hu) hsub hne
        omega
    | succ c ih =>
      intro t ht hle
      by_cases hkeep : ∀ u ∈ l, u ≠ t → t.is_subset_of u = false
      · exact ⟨t, (mem_removeSubsets_iff hnd).mpr ⟨ht, hkeep⟩,
          is_subset_of_refl (hwf t ht)⟩
      · push_neg at hkeep
        obtain ⟨u, hu, hne, hsubne⟩ := hkeep
        have hsub : t.is_subset_of u = true := by
          cases h : t.is_subset_of u
          · exact absurd h hsubne
          · rfl
        have hlt := subset_strict_popcount (hwf t ht) (hwf u hu) hsub hne
        obtain ⟨w, hw, hws⟩ := ih u hu (by omega)
        exact ⟨w, hw, is_subset_of_trans hsub hws⟩
  intro t ht
  exact key (popcount t.mask) t ht (Nat.le_refl _)

theorem mem_insertBySize {t x : BooleanInterval} :
    ∀ l, x ∈ insertBySize t l ↔ x = t ∨ x ∈ l := by
  intro l
  induction l with
  | nil => simp [insertBySize]
  | cons u rest ih =>
    simp only [insertBySize]
    by_cases h : u.size < t.size
    · rw [if_pos h]
      simp [List.mem_cons]
    · rw [if_neg h]
      simp only [List.mem_cons, ih]
      tauto

theorem mem_sortBySize {l : List BooleanInterval} {x : BooleanInterval} :
    x ∈ sortBySize l ↔ x ∈ l := by
  have key : ∀ (l2 acc : List BooleanInterval),
      (x ∈ l2.foldl (fun acc t => insertBySize t acc) acc ↔ x ∈ acc ∨ x ∈ l2) := by
    intro l2
    induction l2 with
    | nil =>
      intro acc
      simp
    | cons u rest ih =>
      intro acc
      rw [List.foldl_cons, ih, mem_insertBySize]
      simp only [List.mem_cons]
      tauto
  unfold sortBySize
  rw [key]
  simp

theorem sig_testBit_sub {f : PartialBooleanFunction} :
    ∀ i, f.ones_mask.testBit i = true → f.significant_mask.testBit i = true := by
  intro i hi
  unfold PartialBooleanFunction.significant_mask
  rw [Nat.testBit_or, hi]
  simp

theorem find_all_max_spec (f : PartialBooleanFunction)
    (ho : f.ones_mask < 2 ^ 2 ^ f.n) (hd : f.dcares_mask < 2 ^ 2 ^ f.n) :
    (∀ t ∈ find_all_max_intervals f,
        BooleanInterval.WFn f.n t ∧ t.expand f.significant_mask = [] ∧
        t.covers_mask f.ones_mask ≠ 0 ∧
        (∀ p, p < 2 ^ f.n → t.covers_point p = true →
          f.significant_mask.testBit p = true)) ∧
    (∀ p, f.ones_mask.testBit p = true →
      ∃ t ∈ find_all_max_intervals f, t.covers_point p = true) := by
  have hsig : f.significant_mask < 2 ^ 2 ^ f.n := Nat.or_lt_two_pow ho hd
  have hinv0 := bfsInv_init hsig (@sig_testBit_sub f)
  have hinv := bfsRun_inv ho
    (bfsFuel f.n (seedIntervals f.n f.significant_mask)) hinv0
  have hphi : bfsPhi f.n ⟨seedIntervals f.n f.significant_mask, [], []⟩ <
      bfsFuel f.n (seedIntervals f.n f.significant_mask) := by
    unfold bfsPhi bfsFuel
    simp
  have hdrain := bfsRun_drain ho
    (bfsFuel f.n (seedIntervals f.n f.significant_mask)) hinv0 hphi
  have hfa : find_all_max_intervals f =
      sortBySize (removeSubsets (bfsRun f.significant_mask f.ones_mask
        (bfsFuel f.n (seedIntervals f.n f.significant_mask))
        ⟨seedIntervals f.n f.significant_mask, [], []⟩).found) := rfl
  have hfound_wf : ∀ t ∈ (bfsRun f.significant_mask f.ones_mask
      (bfsFuel f.n (seedIntervals f.n f.significant_mask))
      ⟨seedIntervals f.n f.significant_mask, [], []⟩).found,
      BooleanInterval.WFn f.n t := by
    intro t ht
    exact hinv.wfV t (hinv.fndSubV t ht)
  constructor
  · intro t ht
    rw [hfa, mem_sortBySize] at ht
    have htf := removeSubsets_mem ht
    refine ⟨hfound_wf t htf, (hinv.maxF t htf).1, (hinv.maxF t htf).2, ?_⟩
    intro p hp hc
    exact hinv.soundV t (hinv.fndSubV t htf) p hp hc
  · intro p hp
    obtain ⟨u, hu, huc⟩ := found_covers hinv hdrain hp
    obtain ⟨w, hw, hws⟩ := removeSubsets_complete hfound_wf hinv.ndF u hu
    refine ⟨w, ?_, is_subset_of_covers hws huc⟩
    rw [hfa, mem_sortBySize]
    exact hw

theorem pickBest_fold (excluded : List BooleanInterval) (target : Nat) :
    ∀ (l : List BooleanInterval) (acc : Option BooleanInterval × Nat),
      acc.2 ≤ (l.foldl
        (fun best t =>
          if t ∈ excluded then best
          else if best.2 < popcount (t.covers_mask target) then
            (some t, popcount (t.covers_mask target))
          else best) acc).2 ∧
      (∀ t ∈ l, t ∉ excluded → popcount (t.covers_mask target) ≤ (l.foldl
        (fun best t =>
          if t ∈ excluded then best
          else if best.2 < popcount (t.covers_mask target) then
            (some t, popcount (t.covers_mask target))
          else best) acc).2) ∧
      ((l.foldl
        (fun best t =>
          if t ∈ excluded then best
          else if best.2 < popcount (t.covers_mask target) then
            (some t, popcount (t.covers_mask target))
          else best) acc) = acc ∨
        (∃ u ∈ l, u ∉ excluded ∧ (l.foldl
          (fun best t =>
            if t ∈ excluded then best
            else if best.2 < popcount (t.covers_mask target) then
              (some t, popcount (t.covers_mask target))
            else best) acc).1 = some u ∧
          (l.foldl
            (fun best t =>
              if t ∈ excluded then best
              else if best.2 < popcount (t.covers_mask target) then
                (some t, popcount (t.covers_mask target))
              else best) acc).2 = popcount (u.covers_mask target) ∧
          0 < (l.foldl
            (fun best t =>
              if t ∈ excluded then best
              else if best.2 < popcount (t.covers_mask target) then
                (some t, popcount (t.covers_mask target))
              else best) acc).2)) := by
  intro l
  induction l with
  | nil =>
    intro acc
    exact ⟨Nat.le_refl _, by simp, Or.inl rfl⟩
  | cons t l ih =>
    intro acc
    rw [List.foldl_cons]
    by_cases hexcl : t ∈ excluded
    · rw [if_pos hexcl]
      obtain ⟨hmono, hbound, halt⟩ := ih acc
      refine ⟨hmono, ?_, halt.imp id (fun ⟨u, hu, h⟩ => ⟨u, List.mem_cons_of_mem _ hu, h⟩)⟩
      intro s hs hse
      rcases List.mem_cons.mp hs with heq | hs2
      · subst heq
        exact absurd hexcl hse
      · exact hbound s hs2 hse
    · rw [if_neg hexcl]
      by_cases hup : acc.2 < popcount (t.covers_mask target)
      · rw [if_pos hup]
        obtain ⟨hmono, hbound, halt⟩ := ih (some t, popcount (t.covers_mask target))
        refine ⟨?_, ?_, ?_⟩
        · exact Nat.le_trans (Nat.le_of_lt hup) hmono
        · intro s hs hse
          rcases List.mem_cons.mp hs with heq | hs2
          · subst heq
            exact hmono
          · exact hbound s hs2 hse
        · rcases halt with heq | ⟨u, hu, h1, h2, h3⟩
          · right
            refine ⟨t, List.mem_cons_self _ _, hexcl, ?_, ?_, ?_⟩
            · rw [heq]
            · rw [heq]
            · rw [heq]
              omega
          · exact Or.inr ⟨u, List.mem_cons_of_mem _ hu, h1, h2, h3⟩
      · rw [if_neg hup]
        obtain ⟨hmono, hbound, halt⟩ := ih acc
        refine ⟨hmono, ?_, halt.imp id (fun ⟨u, hu, h⟩ => ⟨u, List.mem_cons_of_mem _ hu, h⟩)⟩
        intro s hs hse
        rcases List.mem_cons.mp hs with heq | hs2
        · subst heq
          omega
        · exact hbound s hs2 hse

theorem pickBest_spec (cands excluded : List BooleanInterval) (target : Nat) :
    (∀ t ∈ cands, t ∉ excluded →
      popcount (t.covers_mask target) ≤ (pickBest cands excluded target).2) ∧
    (((pickBest cands excluded target).1 = none ∧
        (pickBest cands excluded target).2 = 0) ∨
      (∃ u ∈ cands, u ∉ excluded ∧ (pickBest cands excluded target).1 = some u ∧
        (pickBest cands excluded target).2 = popcount (u.covers_mask target) ∧
        0 < (pickBest cands excluded target).2)) := by
  obtain ⟨_, hbound, halt⟩ := pickBest_fold excluded target cands (none, 0)
  refine ⟨hbound, ?_⟩
  rcases halt with heq | h
  · left
    unfold pickBest
    rw [heq]
    exact ⟨rfl, rfl⟩
  · exact Or.inr h

theorem stage1Step_subset {f : PartialBooleanFunction} {all : List BooleanInterval}
    {acc : List BooleanInterval × Nat} {p : Nat} (h : ∀ t ∈ acc.1, t ∈ all) :
    ∀ t ∈ (stage1Step f all acc p).1, t ∈ all := by
  intro t ht
  unfold stage1Step at ht
  rcases hcov : coverage all f p with _ | ⟨t', rest⟩
  · rw [hcov] at ht
    exact h t ht
  · rcases rest with _ | ⟨t2, rest2⟩
    · rw [hcov] at ht
      dsimp only at ht
      by_cases hmem : t' ∈ acc.1
      · rw [if_pos hmem] at ht
        exact h t ht
      · rw [if_neg hmem] at ht
        rcases List.mem_append.mp ht with h1 | h1
        · exact h t h1
        · rw [List.mem_singleton] at h1
          subst h1
          have ht' : t ∈ coverage all f p := by
            rw [hcov]
            exact List.mem_singleton_self _
          exact List.mem_of_mem_filter ht'
    · rw [hcov] at ht
      exact h t ht

theorem stage1_subset (f : PartialBooleanFunction) (all : List BooleanInterval) :
    ∀ t ∈ (essentialStage1 f all).1, t ∈ all := by
  unfold essentialStage1
  have key : ∀ (points : List Nat) (acc : List BooleanInterval × Nat),
      (∀ t ∈ acc.1, t ∈ all) →
      ∀ t ∈ (points.foldl (stage1Step f all) acc).1, t ∈ all := by
    intro points
    induction points with
    | nil =>
      intro acc h
      exact h
    | cons p ps ih =>
      intro acc h
      rw [List.foldl_cons]
      exact ih _ (stage1Step_subset h)
  exact key _ _ (by simp)

theorem stage2_subset (f : PartialBooleanFunction) (all : List BooleanInterval) :
    ∀ (fuel : Nat) (acc : List BooleanInterval × Nat), (∀ t ∈ acc.1, t ∈ all) →
      ∀ t ∈ (essentialStage2 f all fuel acc).1, t ∈ all := by
  intro fuel
  induction fuel with
  | zero =>
    intro acc h
    exact h
  | succ fuel ih =>
    intro acc h
    by_cases hrem : andNot f.ones_mask acc.2 = 0
    · have hred : essentialStage2 f all (fuel + 1) acc = acc := by
        unfold essentialStage2
        rw [if_pos hrem]
      rw [hred]
      exact h
    · obtain ⟨_, halt⟩ := pickBest_spec all acc.1 (andNot f.ones_mask acc.2)
      rcases halt with ⟨hnone, _⟩ | ⟨u, hu, _, hsome, _, _⟩
      · have hpb : pickBest all acc.1 (andNot f.ones_mask acc.2) =
            (none, (pickBest all acc.1 (andNot f.ones_mask acc.2)).2) := by
          rw [← hnone]
        have hred : essentialStage2 f all (fuel + 1) acc = acc := by
          unfold essentialStage2
          rw [if_neg hrem, hpb]
        rw [hred]
        exact h
      · have hpb : pickBest all acc.1 (andNot f.ones_mask acc.2) =
            (some u, (pickBest all acc.1 (andNot f.ones_mask acc.2)).2) := by
          rw [← hsome]
        have hred : essentialStage2 f all (fuel + 1) acc =
            essentialStage2 f all fuel
              (acc.1 ++ [u], acc.2 ||| u.covers_mask f.ones_mask) := by
          conv_lhs => unfold essentialStage2
          rw [if_neg hrem, hpb]
        rw [hred]
        apply ih
        intro t ht
        rcases List.mem_append.mp ht with h1 | h1
        · exact h t h1
        · rw [List.mem_singleton] at h1
          subst h1
          exact hu

theorem essentials_subset_all (f : PartialBooleanFunction) :
    ∀ t ∈ find_essential_intervals f, t ∈ find_all_max_intervals f := by
  intro t ht
  unfold find_essential_intervals at ht
  exact stage2_subset f _ _ _ (stage1_subset f _) t ht

theorem foldl_or_masks_testBit (g : BooleanInterval → Nat) :
    ∀ (l : List BooleanInterval) (acc p : Nat),
      ((l.foldl (fun m t => m ||| g t) acc).testBit p = true) ↔
        (acc.testBit p = true ∨ ∃ t ∈ l, (g t).testBit p = true) := by
  intro l
  induction l with
  | nil =>
    intro acc p
    simp
  | cons t l ih =>
    intro acc p
    rw [List.foldl_cons, ih]
    rw [Nat.testBit_or]
    constructor
    · rintro (h | ⟨u, hu, huc⟩)
      · rcases Bool.or_eq_true_iff.mp h with h1 | h1
        · exact Or.inl h1
        · exact Or.inr ⟨t, List.mem_cons_self _ _, h1⟩
      · exact Or.inr ⟨u, List.mem_cons_of_mem _ hu, huc⟩
    · rintro (h | ⟨u, hu, huc⟩)
      · exact Or.inl (Bool.or_eq_true_iff.mpr (Or.inl h))
      · rcases List.mem_cons.mp hu with heq | hu2
        · subst heq
          exact Or.inl (Bool.or_eq_true_iff.mpr (Or.inr huc))
        · exact Or.inr ⟨u, hu2, huc⟩

theorem greedyLoop_zero_red (f : PartialBooleanFunction)
    (intervals : List BooleanInterval) (fuel : Nat) (result : List BooleanInterval) :
    greedyLoop f intervals (fuel + 1) 0 result = result := by
  conv_lhs => unfold greedyLoop
  rw [if_pos rfl]

theorem greedyLoop_none_red (f : PartialBooleanFunction)
    (intervals : List BooleanInterval) (fuel : Nat) {uncovered : Nat}
    (result : List BooleanInterval) (hz : uncovered ≠ 0)
    (hnone : (pickBest intervals result uncovered).1 = none) :
    greedyLoop f intervals (fuel + 1) uncovered result = result := by
  have hpb : pickBest intervals result uncovered =
      (none, (pickBest intervals result uncovered).2) := by
    rw [← hnone]
  conv_lhs => unfold greedyLoop
  rw [if_neg hz, hpb]

theorem greedyLoop_some_red (f : PartialBooleanFunction)
    (intervals : List BooleanInterval) (fuel : Nat) {uncovered : Nat}
    (result : List BooleanInterval) {u : BooleanInterval} (hz : uncovered ≠ 0)
    (hsome : (pickBest intervals result uncovered).1 = some u) :
    greedyLoop f intervals (fuel + 1) uncovered result =
      (if 0 < (pickBest intervals result uncovered).2 then
        greedyLoop f intervals fuel
          (Nat.ldiff uncovered (u.covers_mask f.ones_mask)) (result ++ [u])
      else result) := by
  have hpb : pickBest intervals result uncovered =
      (some u, (pickBest intervals result uncovered).2) := by
    rw [← hsome]
  conv_lhs => unfold greedyLoop
  rw [if_neg hz, hpb]
  simp only [andNot_eq_ldiff]

theorem greedyLoop_subset (f : PartialBooleanFunction)
    (intervals : List BooleanInterval) :
    ∀ (fuel uncovered : Nat) (result : List BooleanInterval),
      ∀ t ∈ greedyLoop f intervals fuel uncovered result,
        t ∈ result ∨ t ∈ intervals := by
  intro fuel
  induction fuel with
  | zero =>
    intro uncovered result t ht
    exact Or.inl ht
  | succ fuel ih =>
    intro uncovered result t ht
    by_cases hz : uncovered = 0
    · subst hz
      rw [greedyLoop_zero_red] at ht
      exact Or.inl ht
    · obtain ⟨_, halt⟩ := pickBest_spec intervals result uncovered
      rcases halt with ⟨hnone, _⟩ | ⟨u, hu, _, hsome, _, hpos⟩
      · rw [greedyLoop_none_red f intervals fuel result hz hnone] at ht
        exact Or.inl ht
      · rw [greedyLoop_some_red f intervals fuel result hz hsome, if_pos hpos] at ht
        rcases ih _ _ t ht with h1 | h1
        · rcases List.mem_append.mp h1 with h2 | h2
          · exact Or.inl h2
          · rw [List.mem_singleton] at h2
            subst h2
            exact Or.inr hu
        · exact Or.inr h1

theorem greedyLoop_mono (f : PartialBooleanFunction)
    (intervals : List BooleanInterval) :
    ∀ (fuel uncovered : Nat) (result : List BooleanInterval),
      ∀ t ∈ result, t ∈ greedyLoop f intervals fuel uncovered result := by
  intro fuel
  induction fuel with
  | zero =>
    intro uncovered result t ht
    exact ht
  | succ fuel ih =>
    intro uncovered result t ht
    by_cases hz : uncovered = 0
    · subst hz
      rw [greedyLoop_zero_red]
      exact ht
    · obtain ⟨_, halt⟩ := pickBest_spec intervals result uncovered
      rcases halt with ⟨hnone, _⟩ | ⟨u, hu, _, hsome, _, hpos⟩
      · rw [greedyLoop_none_red f intervals fuel result hz hnone]
        exact ht
      · rw [greedyLoop_some_red f intervals fuel result hz hsome, if_pos hpos]
        exact ih _ _ t (List.mem_append_left _ ht)

theorem greedyLoop_complete (f : PartialBooleanFunction)
    (intervals : List BooleanInterval)
    (hwf : ∀ t ∈ intervals, BooleanInterval.WFn f.n t)
    (ho : f.ones_mask < 2 ^ 2 ^ f.n)
    (hcompl : ∀ p, f.ones_mask.testBit p = true →
      ∃ t ∈ intervals, t.covers_point p = true) :
    ∀ (fuel uncovered : Nat) (result : List BooleanInterval),
      popcount uncovered < fuel →
      (∀ p, uncovered.testBit p = true ↔ (f.ones_mask.testBit p = true ∧
        ∀ t ∈ result, t.covers_point p = false)) →
      ∀ p, f.ones_mask.testBit p = true →
        ∃ t ∈ greedyLoop f intervals fuel uncovered result,
          t.covers_point p = true := by
  intro fuel
  induction fuel with
  | zero =>
    intro uncovered result hfuel _ _ _
    omega
  | succ fuel ih =>
    intro uncovered result hfuel hinv p hp
    by_cases hz : uncovered = 0
    · subst hz
      rw [greedyLoop_zero_red]
      have h := hinv p
      rw [Nat.zero_testBit] at h
      have h2 : ¬ (f.ones_mask.testBit p = true ∧
          ∀ t ∈ result, t.covers_point p = false) := by
        intro hx
        have := h.mpr hx
        exact absurd this (by simp)
      push_neg at h2
      have h3 := h2 hp
      push_neg at h3
      obtain ⟨t, ht, htc⟩ := h3
      refine ⟨t, ht, ?_⟩
      cases hc : t.covers_point p
      · exact absurd hc htc
      · rfl
    · obtain ⟨p0, hp0⟩ := Nat.ne_zero_implies_bit_true hz
      obtain ⟨hp0ones, _⟩ := (hinv p0).mp hp0
      obtain ⟨t0, ht0, ht0c⟩ := hcompl p0 hp0ones
      have ht0nr : t0 ∉ result := by
        intro hr
        have hfalse := ((hinv p0).mp hp0).2 t0 hr
        rw [ht0c] at hfalse
        exact absurd hfalse (by simp)
      have hult : uncovered < 2 ^ 2 ^ f.n := by
        apply @lt_two_pow_of_testBit_subset _ f.ones_mask _ ?_ ho
        intro i hi
        exact ((hinv i).mp hi).1
      have ht0cm : (t0.covers_mask uncovered).testBit p0 = true :=
        (testBit_covers_mask (hwf t0 ht0) hult p0).mpr ⟨hp0, ht0c⟩
      have ht0ne : t0.covers_mask uncovered ≠ 0 := by
        intro h0
        rw [h0] at ht0cm
        exact absurd ht0cm (by simp)
      have ht0pc : 0 < popcount (t0.covers_mask uncovered) := popcount_pos ht0ne
      obtain ⟨hbound, halt⟩ := pickBest_spec intervals result uncovered
      have hge := hbound t0 ht0 ht0nr
      rcases halt with ⟨_, hzero⟩ | ⟨u, hu, hunr, hsome, hcnt, hpos⟩
      · omega
      · rw [greedyLoop_some_red f intervals fuel result hz hsome, if_pos hpos]
        have hwu := hwf u hu
        have hucm : u.covers_mask uncovered ≠ 0 := by
          intro h0
          rw [hcnt, h0] at hpos
          simp [popcount_zero] at hpos
        obtain ⟨q, hq⟩ := Nat.ne_zero_implies_bit_true hucm
        obtain ⟨hqunc, hqc⟩ := (testBit_covers_mask hwu hult q).mp hq
        have hqones : f.ones_mask.testBit q = true := ((hinv q).mp hqunc).1
        have hqco : (u.covers_mask f.ones_mask).testBit q = true :=
          (testBit_covers_mask hwu ho q).mpr ⟨hqones, hqc⟩
        have hsubnew : (Nat.ldiff uncovered (u.covers_mask f.ones_mask)) &&& uncovered
            = Nat.ldiff uncovered (u.covers_mask f.ones_mask) := by
          apply Nat.eq_of_testBit_eq
          intro i
          rw [Nat.testBit_and, Nat.testBit_ldiff]
          cases hui : uncovered.testBit i <;> simp [hui]
        have hne2 : Nat.ldiff uncovered (u.covers_mask f.ones_mask) ≠ uncovered := by
          intro he
          have hbit := congrArg (fun x => Nat.testBit x q) he
          simp only [Nat.testBit_ldiff] at hbit
          rw [hqunc, hqco] at hbit
          simp at hbit
        have hpcnew : popcount (Nat.ldiff uncovered (u.covers_mask f.ones_mask)) <
            popcount uncovered := popcount_strict_subset hsubnew hne2
        apply ih
        · omega
        · intro i
          rw [Nat.testBit_ldiff]
          constructor
          · intro hi
            rcases Bool.and_eq_true_iff.mp hi with ⟨h1, h2⟩
            obtain ⟨hio, hires⟩ := (hinv i).mp h1
            refine ⟨hio, ?_⟩
            intro t ht
            rcases List.mem_append.mp ht with h3 | h3
            · exact hires t h3
            · rw [List.mem_singleton] at h3
              subst h3
              cases hc : t.covers_point i
              · rfl
              · have hcm := (testBit_covers_mask hwu ho i).mpr ⟨hio, hc⟩
                rw [hcm] at h2
                simp at h2
          · rintro ⟨hio, hires⟩
            have h1 : uncovered.testBit i = true := (hinv i).mpr
              ⟨hio, fun t ht => hires t (List.mem_append_left _ ht)⟩
            have h2 : (u.covers_mask f.ones_mask).testBit i = false := by
              cases hc : (u.covers_mask f.ones_mask).testBit i
              · rfl
              · obtain ⟨_, hcov⟩ := (testBit_covers_mask hwu ho i).mp hc
                have hres := hires u (List.mem_append_right _ (List.mem_singleton_self _))
                rw [hcov] at hres
                exact absurd hres (by simp)
            rw [h1, h2]
            rfl
        · exact hp

theorem zeros_mask_lt (f : PartialBooleanFunction) : f.zeros_mask < 2 ^ 2 ^ f.n := by
  unfold PartialBooleanFunction.zeros_mask
  apply @lt_two_pow_of_testBit_subset _ (2 ^ 2 ^ f.n - 1) _ ?_
    (by have h : 0 < 2 ^ 2 ^ f.n := Nat.pos_pow_of_pos _ (by omega)
        omega)
  intro i hi
  rw [Nat.testBit_ldiff] at hi
  exact (Bool.and_eq_true_iff.mp hi).1

theorem covers_zeros_eq_zero_iff {f : PartialBooleanFunction} {t : BooleanInterval}
    (hw : BooleanInterval.WFn f.n t) :
    t.covers_mask f.zeros_mask = 0 ↔
      ∀ p, p < 2 ^ f.n → t.covers_point p = true →
        f.significant_mask.testBit p = true := by
  have hzlt := zeros_mask_lt f
  constructor
  · intro h0 p hp hc
    by_contra hns
    have hns' : f.significant_mask.testBit p = false := by
      cases h : f.significant_mask.testBit p
      · rfl
      · exact absurd h hns
    have hz : f.zeros_mask.testBit p = true := by
      unfold PartialBooleanFunction.zeros_mask
      rw [Nat.testBit_ldiff, Nat.testBit_two_pow_sub_one]
      simp [hp, hns']
    have hbit := (testBit_covers_mask hw hzlt p).mpr ⟨hz, hc⟩
    rw [h0] at hbit
    simp at hbit
  · intro hs
    by_contra h0
    obtain ⟨p, hzp, hc⟩ := (covers_mask_ne_zero_iff hw hzlt).mp h0
    unfold PartialBooleanFunction.zeros_mask at hzp
    rw [Nat.testBit_ldiff, Nat.testBit_two_pow_sub_one] at hzp
    rcases Bool.and_eq_true_iff.mp hzp with ⟨hplt, hnsig⟩
    rw [decide_eq_true_eq] at hplt
    have hsp := hs p hplt hc
    rw [hsp] at hnsig
    simp at hnsig

theorem minimize_subset_all (f : PartialBooleanFunction) :
    ∀ t ∈ minimize f, t ∈ find_all_max_intervals f := by
  intro t ht
  have hm : minimize f = (if (find_essential_intervals f).foldl
      (fun m t => m ||| t.covers_mask f.ones_mask) 0 = f.ones_mask then
      find_essential_intervals f
    else greedy_cover f (find_all_max_intervals f)) := rfl
  rw [hm] at ht
  by_cases hc : (find_essential_intervals f).foldl
      (fun m t => m ||| t.covers_mask f.ones_mask) 0 = f.ones_mask
  · rw [if_pos hc] at ht
    exact essentials_subset_all f t ht
  · rw [if_neg hc] at ht
    unfold greedy_cover at ht
    rcases greedyLoop_subset f _ _ _ _ t ht with h | h
    · simp at h
    · exact h

theorem minimize_complete (f : PartialBooleanFunction)
    (ho : f.ones_mask < 2 ^ 2 ^ f.n) (hd : f.dcares_mask < 2 ^ 2 ^ f.n) :
    ∀ p, f.ones_mask.testBit p = true →
      ∃ t ∈ minimize f, t.covers_point p = true := by
  intro p hp
  obtain ⟨hall, hcompl⟩ := find_all_max_spec f ho hd
  have hm : minimize f = (if (find_essential_intervals f).foldl
      (fun m t => m ||| t.covers_mask f.ones_mask) 0 = f.ones_mask then
      find_essential_intervals f
    else greedy_cover f (find_all_max_intervals f)) := rfl
  by_cases hc : (find_essential_intervals f).foldl
      (fun m t => m ||| t.covers_mask f.ones_mask) 0 = f.ones_mask
  · rw [hm, if_pos hc]
    have hbit : ((find_essential_intervals f).foldl
        (fun (m : Nat) (t : BooleanInterval) => m ||| t.covers_mask f.ones_mask)
        0).testBit p = true := by
      rw [hc]
      exact hp
    rw [foldl_or_masks_testBit] at hbit
    rcases hbit with h | ⟨t, ht, htb⟩
    · simp at h
    · have hwf : BooleanInterval.WFn f.n t :=
        (hall t (essentials_subset_all f t ht)).1
      exact ⟨t, ht, ((testBit_covers_mask hwf ho p).mp htb).2⟩
  · rw [hm, if_neg hc]
    unfold greedy_cover
    apply greedyLoop_complete f (find_all_max_intervals f)
      (fun t ht => (hall t ht).1) ho hcompl
    · omega
    · intro q
      simp
    · exact hp

theorem minimize_union (f : PartialBooleanFunction)
    (ho : f.ones_mask < 2 ^ 2 ^ f.n) (hd : f.dcares_mask < 2 ^ 2 ^ f.n) :
    (minimize f).foldl (fun m t => m ||| t.covers_mask f.ones_mask) 0 =
      f.ones_mask := by
  obtain ⟨hall, _⟩ := find_all_max_spec f ho hd
  apply Nat.eq_of_testBit_eq
  intro p
  have hiff := foldl_or_masks_testBit (fun t => t.covers_mask f.ones_mask)
    (minimize f) 0 p
  by_cases hR : f.ones_mask.testBit p = true
  · rw [hR]
    obtain ⟨t, ht, hcov⟩ := minimize_complete f ho hd p hR
    have hwf : BooleanInterval.WFn f.n t := (hall t (minimize_subset_all f t ht)).1
    exact hiff.mpr (Or.inr ⟨t, ht, (testBit_covers_mask hwf ho p).mpr ⟨hR, hcov⟩⟩)
  · have hR' : f.ones_mask.testBit p = false := by
      cases h : f.ones_mask.testBit p
      · rfl
      · exact absurd h hR
    rw [hR']
    cases hL : ((minimize f).foldl
        (fun (m : Nat) (t : BooleanInterval) => m ||| t.covers_mask f.ones_mask)
        0).testBit p
    · rfl
    · exfalso
      rcases hiff.mp hL with h | ⟨t, ht, htb⟩
      · simp at h
      · have hwf : BooleanInterval.WFn f.n t :=
          (hall t (minimize_subset_all f t ht)).1
        have := ((testBit_covers_mask hwf ho p).mp htb).1
        rw [hR'] at this
        exact absurd this (by simp)

theorem find_all_max_empty (f : PartialBooleanFunction)
    (ho : f.ones_mask < 2 ^ 2 ^ f.n) (hd : f.dcares_mask < 2 ^ 2 ^ f.n)
    (hz : f.ones_mask = 0) : find_all_max_intervals f = [] := by
  rw [List.eq_nil_iff_forall_not_mem]
  intro t ht
  have h := ((find_all_max_spec f ho hd).1 t ht).2.2.1
  rw [hz, covers_mask_zero] at h
  exact h rfl

theorem minimize_empty (f : PartialBooleanFunction)
    (ho : f.ones_mask < 2 ^ 2 ^ f.n) (hd : f.dcares_mask < 2 ^ 2 ^ f.n)
    (hz : f.ones_mask = 0) : minimize f = [] := by
  have hall := find_all_max_empty f ho hd hz
  have hess : find_essential_intervals f = [] := by
    rw [List.eq_nil_iff_forall_not_mem]
    intro t ht
    have h := essentials_subset_all f t ht
    rw [hall] at h
    simp at h
  have hm : minimize f = (if (find_essential_intervals f).foldl
      (fun m t => m ||| t.covers_mask f.ones_mask) 0 = f.ones_mask then
      find_essential_intervals f
    else greedy_cover f (find_all_max_intervals f)) := rfl
  rw [hm, hess, hz]
  simp

theorem get_minimal_dnf_empty {f : PartialBooleanFunction}
    (h : minimize f = []) : get_minimal_dnf f = "0" := by
  unfold get_minimal_dnf
  rw [h]

end MaximalIntervalsMinimizer

theorem expand_mem_pointwise {t : BooleanInterval} {n : Nat}
    (ht : BooleanInterval.WFn n t) {allowed : Nat} {e : BooleanInterval} :
    e ∈ t.expand allowed ↔
      ∃ k, t.mask.testBit k = true ∧
        e = BooleanInterval.make t.n (t.mask ^^^ 2 ^ k)
              (t.value &&& (t.mask ^^^ 2 ^ k)) ∧
        (∀ p, p < 2 ^ n → e.covers_point p = true → t.covers_point p = false →
          allowed.testBit p = true) := by
  constructor
  · intro he
    obtain ⟨k, hk, heq, _⟩ := mem_expand_iff.mp he
    obtain ⟨_, _, _, _, hadm⟩ := expand_mem_spec ht he
    exact ⟨k, hk, heq, hadm⟩
  · rintro ⟨k, hk, rfl, hpt⟩
    apply mem_expand_iff.mpr
    refine ⟨k, hk, rfl, ?_⟩
    have h1 := make_WFn t.n (t.mask ^^^ 2 ^ k) (t.value &&& (t.mask ^^^ 2 ^ k))
    have hwe : BooleanInterval.WFn n (BooleanInterval.make t.n (t.mask ^^^ 2 ^ k)
        (t.value &&& (t.mask ^^^ 2 ^ k))) := by
      rw [← ht.1]
      exact h1
    rw [ldiff_eq_zero_iff]
    intro i hi
    rw [Nat.testBit_ldiff] at hi
    rcases Bool.and_eq_true_iff.mp hi with ⟨heP, htP⟩
    obtain ⟨hilt, hic⟩ := (testBit_get_all_points hwe i).mp heP
    have htc : t.covers_point i = false := by
      cases hc : t.covers_point i
      · rfl
      · have hbit := (testBit_get_all_points ht i).mpr ⟨hilt, hc⟩
        rw [hbit] at htP
        simp at htP
    exact hpt i hilt hic htc

/-- C4: covers_mask agrees with the pointwise membership test: for a
    normalized interval t and a candidate mask m over the 2^n evaluation
    points, bit p of t.covers_mask m is set exactly when bit p of m is set and
    t.covers_point p holds; and when t.mask = 0 the universal term returns m
    unchanged. -/
theorem C4_covers_mask_pointwise (t : BooleanInterval) (n : Nat)
    (ht : BooleanInterval.WFn n t) (m : Nat) (hm : m < 2 ^ 2 ^ n) :
    (∀ p, (t.covers_mask m).testBit p = (m.testBit p && t.covers_point p)) ∧
    (t.mask = 0 → t.covers_mask m = m) := by
  constructor
  · intro p
    have hiff := testBit_covers_mask ht hm p
    cases hL : (t.covers_mask m).testBit p
    · cases hmp : m.testBit p
      · simp
      · cases hcp : t.covers_point p
        · simp
        · have hbit := hiff.mpr ⟨hmp, hcp⟩
          rw [hL] at hbit
          exact absurd hbit (by simp)
    · obtain ⟨h1, h2⟩ := hiff.mp hL
      rw [h1, h2]
      rfl
  · intro h0
    unfold BooleanInterval.covers_mask
    rw [if_pos h0]

/-- C4 witness at the interval x2 of 2 variables and candidate mask 5. -/
theorem C4_covers_mask_pointwise_witness :
    (∀ p, ((BooleanInterval.make 2 1 1).covers_mask 5).testBit p =
      ((5 : Nat).testBit p && (BooleanInterval.make 2 1 1).covers_point p)) ∧
    ((BooleanInterval.make 2 1 1).mask = 0 →
      (BooleanInterval.make 2 1 1).covers_mask 5 = 5) :=
  C4_covers_mask_pointwise (BooleanInterval.make 2 1 1) 2 ⟨rfl, by decide, by decide⟩
    5 (by decide)

/-- C5: expand returns exactly the admissible single-literal-dropped
    generalizations: a member is the interval obtained by clearing one set bit
    k of the mask (value reclipped to the new mask), and such a candidate is a
    member iff every point it covers that the original does not lies in
    allowed. -/
theorem C5_expand_characterization (t : BooleanInterval) (n : Nat)
    (ht : BooleanInterval.WFn n t) (allowed : Nat) (e : BooleanInterval) :
    e ∈ t.expand allowed ↔
      ∃ k, t.mask.testBit k = true ∧
        e = BooleanInterval.make t.n (t.mask ^^^ 2 ^ k)
              (t.value &&& (t.mask ^^^ 2 ^ k)) ∧
        (∀ p, p < 2 ^ n → e.covers_point p = true → t.covers_point p = false →
          allowed.testBit p = true) :=
  expand_mem_pointwise ht

/-- C5 witness at the interval x1 & x2 of 2 variables with allowed = 7 and
    the candidate obtained by dropping the low literal. -/
theorem C5_expand_characterization_witness :
    BooleanInterval.make 2 2 2 ∈ (BooleanInterval.make 2 3 3).expand 7 ↔
      ∃ k, (BooleanInterval.make 2 3 3).mask.testBit k = true ∧
        BooleanInterval.make 2 2 2 =
          BooleanInterval.make (BooleanInterval.make 2 3 3).n
            ((BooleanInterval.make 2 3 3).mask ^^^ 2 ^ k)
            ((BooleanInterval.make 2 3 3).value &&&
              ((BooleanInterval.make 2 3 3).mask ^^^ 2 ^ k)) ∧
        (∀ p, p < 2 ^ 2 → (BooleanInterval.make 2 2 2).covers_point p = true →
          (BooleanInterval.make 2 3 3).covers_point p = false →
          (7 : Nat).testBit p = true) :=
  C5_expand_characterization (BooleanInterval.make 2 3 3) 2 ⟨rfl, by decide, by decide⟩
    7 (BooleanInterval.make 2 2 2)

/-- C6: is_subset_of is exactly point-set containment: for two normalized
    intervals over the same n, the pure mask/value comparison holds iff every
    evaluation point covered by a is covered by b. -/
theorem C6_subset_pointwise (a b : BooleanInterval) (n : Nat)
    (ha : BooleanInterval.WFn n a) (hb : BooleanInterval.WFn n b) :
    a.is_subset_of b = true ↔
      ∀ p, p < 2 ^ n → a.covers_point p = true → b.covers_point p = true := by
  constructor
  · intro h p _ hc
    exact is_subset_of_covers h hc
  · exact covers_imp_is_subset ha hb

/-- C6 witness: x1 & x2 against x2 over 2 variables. -/
theorem C6_subset_pointwise_witness :
    (BooleanInterval.make 2 3 3).is_subset_of (BooleanInterval.make 2 1 1) = true ↔
      ∀ p, p < 2 ^ 2 → (BooleanInterval.make 2 3 3).covers_point p = true →
        (BooleanInterval.make 2 1 1).covers_point p = true :=
  C6_subset_pointwise (BooleanInterval.make 2 3 3) (BooleanInterval.make 2 1 1) 2
    ⟨rfl, by decide, by decide⟩ ⟨rfl, by decide, by decide⟩

/-- C9: subset-antisymmetry: for two normalized intervals over the same n,
    mutual is_subset_of forces equality of the records (same mask and
    value). -/
theorem C9_subset_antisymmetry (a b : BooleanInterval) (n : Nat)
    (ha : BooleanInterval.WFn n a) (hb : BooleanInterval.WFn n b)
    (h1 : a.is_subset_of b = true) (h2 : b.is_subset_of a = true) : a = b := by
  have hn : a.n = b.n := by rw [ha.1, hb.1]
  exact is_subset_antisymm_aux hn ha.2.2 hb.2.2 h1 h2

/-- C9 witness at two equal normalized intervals over 2 variables. -/
theorem C9_subset_antisymmetry_witness :
    BooleanInterval.make 2 1 1 = BooleanInterval.make 2 1 1 :=
  C9_subset_antisymmetry (BooleanInterval.make 2 1 1) (BooleanInterval.make 2 1 1) 2
    ⟨rfl, by decide, by decide⟩ ⟨rfl, by decide, by decide⟩ (by decide) (by decide)

/-- C7: construction contract of PartialBooleanFunction.make: construction
    succeeds exactly when ones and dontCares share no in-range index (so
    ones=[0], dontCares=[0] always fails), and out-of-range indices contribute
    nothing to the built masks and never cause an error. -/
theorem C7_construction_contract (n : Nat) (ones dcares : List Int) :
    ((∃ f, PartialBooleanFunction.make n ones dcares = Except.ok f) ↔
      ¬ ∃ v : Int, v ∈ ones ∧ v ∈ dcares ∧ 0 ≤ v ∧ v < (2 : Int) ^ n) ∧
    (∀ f, PartialBooleanFunction.make n ones dcares = Except.ok f →
      ∀ p : Nat, (f.ones_mask.testBit p = true ↔ ((p : Int) ∈ ones ∧ p < 2 ^ n)) ∧
        (f.dcares_mask.testBit p = true ↔ ((p : Int) ∈ dcares ∧ p < 2 ^ n))) ∧
    (¬ ∃ f, PartialBooleanFunction.make n [0] [0] = Except.ok f) := by
  have hcast : ((2 ^ n : Nat) : Int) = (2 : Int) ^ n := by push_cast; ring
  refine ⟨⟨?_, ?_⟩, ?_, ?_⟩
  · rintro ⟨f, hf⟩ ⟨v, hvo, hvd, hv0, hvlt⟩
    obtain ⟨_, hom, hdm, hdisj⟩ := make_ok_fields hf
    have hvn : v.toNat < 2 ^ n := by
      rw [← hcast] at hvlt
      omega
    have hvcast : ((v.toNat : Nat) : Int) = v := Int.toNat_of_nonneg hv0
    have h1 : (maskOfList n ones).testBit v.toNat = true :=
      (testBit_maskOfList n ones v.toNat).mpr ⟨by rw [hvcast]; exact hvo, hvn⟩
    have h2 : (maskOfList n dcares).testBit v.toNat = true :=
      (testBit_maskOfList n dcares v.toNat).mpr ⟨by rw [hvcast]; exact hvd, hvn⟩
    have hbit : (f.ones_mask &&& f.dcares_mask).testBit v.toNat = true := by
      rw [hom, hdm, Nat.testBit_and, h1, h2]
      rfl
    rw [hdisj] at hbit
    simp at hbit
  · intro hno
    by_cases hc : maskOfList n ones &&& maskOfList n dcares = 0
    · refine ⟨⟨n, maskOfList n ones, maskOfList n dcares⟩, ?_⟩
      unfold PartialBooleanFunction.make
      have hcond : ¬ (maskOfList n ones &&& maskOfList n dcares ≠ 0) := by
        simp [hc]
      rw [if_neg hcond]
    · exfalso
      obtain ⟨p, hp⟩ := Nat.ne_zero_implies_bit_true hc
      rw [Nat.testBit_and] at hp
      rcases Bool.and_eq_true_iff.mp hp with ⟨h1, h2⟩
      obtain ⟨ho1, hlt⟩ := (testBit_maskOfList n ones p).mp h1
      obtain ⟨hd1, _⟩ := (testBit_maskOfList n dcares p).mp h2
      apply hno
      refine ⟨(p : Int), ho1, hd1, Int.natCast_nonneg p, ?_⟩
      rw [← hcast]
      exact_mod_cast hlt
  · intro f hf p
    obtain ⟨_, hom, hdm, _⟩ := make_ok_fields hf
    constructor
    · rw [hom]
      exact testBit_maskOfList n ones p
    · rw [hdm]
      exact testBit_maskOfList n dcares p
  · rintro ⟨f, hf⟩
    obtain ⟨_, hom, hdm, hdisj⟩ := make_ok_fields hf
    have h1 : (maskOfList n [(0 : Int)]).testBit 0 = true := by
      apply (testBit_maskOfList n [0] 0).mpr
      refine ⟨by simp, Nat.pos_pow_of_pos _ (by omega)⟩
    have hbit : (f.ones_mask &&& f.dcares_mask).testBit 0 = true := by
      rw [hom, hdm, Nat.testBit_and, h1]
      rfl
    rw [hdisj] at hbit
    simp at hbit

/-- C1: completeness of the cover: for every valid constructed input with at
    least one required 1-point, the union of covers_mask(ones_mask) over the
    implicants returned by minimize equals ones_mask. -/
theorem C1_cover_completeness (n : Nat) (ones dcares : List Int)
    (f : PartialBooleanFunction) (hn : 1 ≤ n)
    (hmk : PartialBooleanFunction.make n ones dcares = Except.ok f)
    (hne : f.ones_mask ≠ 0) :
    (MaximalIntervalsMinimizer.minimize f).foldl
      (fun (m : Nat) (t : BooleanInterval) => m ||| t.covers_mask f.ones_mask) 0 =
      f.ones_mask := by
  obtain ⟨hfn, hom, hdm, _⟩ := make_ok_fields hmk
  have ho : f.ones_mask < 2 ^ 2 ^ f.n := by
    rw [hom, hfn]
    exact maskOfList_lt n ones
  have hd : f.dcares_mask < 2 ^ 2 ^ f.n := by
    rw [hdm, hfn]
    exact maskOfList_lt n dcares
  exact MaximalIntervalsMinimizer.minimize_union f ho hd

/-- C1 witness: the one-variable function with ones = [0]. -/
theorem C1_cover_completeness_witness :
    (MaximalIntervalsMinimizer.minimize
        (⟨1, 1, 0⟩ : PartialBooleanFunction)).foldl
      (fun (m : Nat) (t : BooleanInterval) =>
        m ||| t.covers_mask (⟨1, 1, 0⟩ : PartialBooleanFunction).ones_mask) 0 =
      (⟨1, 1, 0⟩ : PartialBooleanFunction).ones_mask :=
  C1_cover_completeness 1 [0] [] ⟨1, 1, 0⟩ (by omega) rfl (by decide)

/-- C2: soundness invariant of the search and the result: every seed, every
    interval in the queue, visited set or found list at any stage of the
    breadth-first expansion, every maximal interval and every implicant of the
    final result covers no 0-point (covers_mask zeros_mask = 0), and every
    implicant of the final result covers some 1-point
    (covers_mask ones_mask ≠ 0). -/
theorem C2_soundness_invariant (f : PartialBooleanFunction)
    (ho : f.ones_mask < 2 ^ 2 ^ f.n) (hd : f.dcares_mask < 2 ^ 2 ^ f.n) :
    (∀ t ∈ MaximalIntervalsMinimizer.seedIntervals f.n f.significant_mask,
        t.covers_mask f.zeros_mask = 0) ∧
    (∀ fuel t,
        (t ∈ (MaximalIntervalsMinimizer.bfsRun f.significant_mask f.ones_mask fuel
            ⟨MaximalIntervalsMinimizer.seedIntervals f.n f.significant_mask, [],
              []⟩).queue ∨
         t ∈ (MaximalIntervalsMinimizer.bfsRun f.significant_mask f.ones_mask fuel
            ⟨MaximalIntervalsMinimizer.seedIntervals f.n f.significant_mask, [],
              []⟩).visited ∨
         t ∈ (MaximalIntervalsMinimizer.bfsRun f.significant_mask f.ones_mask fuel
            ⟨MaximalIntervalsMinimizer.seedIntervals f.n f.significant_mask, [],
              []⟩).found) →
        t.covers_mask f.zeros_mask = 0) ∧
    (∀ t ∈ MaximalIntervalsMinimizer.find_all_max_intervals f,
        t.covers_mask f.zeros_mask = 0) ∧
    (∀ t ∈ MaximalIntervalsMinimizer.find_essential_intervals f,
        t.covers_mask f.zeros_mask = 0) ∧
    (∀ t ∈ MaximalIntervalsMinimizer.minimize f,
        t.covers_mask f.zeros_mask = 0 ∧ t.covers_mask f.ones_mask ≠ 0) := by
  have hsig : f.significant_mask < 2 ^ 2 ^ f.n := Nat.or_lt_two_pow ho hd
  have hinv0 := MaximalIntervalsMinimizer.bfsInv_init hsig
    (@MaximalIntervalsMinimizer.sig_testBit_sub f)
  have hzero : ∀ t, BooleanInterval.WFn f.n t →
      (∀ p, p < 2 ^ f.n → t.covers_point p = true →
        f.significant_mask.testBit p = true) →
      t.covers_mask f.zeros_mask = 0 := by
    intro t hw hs
    exact (MaximalIntervalsMinimizer.covers_zeros_eq_zero_iff hw).mpr hs
  have hallmax : ∀ t ∈ MaximalIntervalsMinimizer.find_all_max_intervals f,
      t.covers_mask f.zeros_mask = 0 := by
    intro t ht
    obtain ⟨hw, _, _, hs⟩ :=
      (MaximalIntervalsMinimizer.find_all_max_spec f ho hd).1 t ht
    exact hzero t hw hs
  refine ⟨?_, ?_, hallmax, ?_, ?_⟩
  · intro t ht
    exact hzero t (hinv0.wfQ t ht) (hinv0.soundQ t ht)
  · intro fuel t ht
    have hinv := MaximalIntervalsMinimizer.bfsRun_inv ho fuel hinv0
    rcases ht with h | h | h
    · exact hzero t (hinv.wfQ t h) (hinv.soundQ t h)
    · exact hzero t (hinv.wfV t h) (hinv.soundV t h)
    · exact hzero t (hinv.wfV t (hinv.fndSubV t h)) (hinv.soundV t (hinv.fndSubV t h))
  · intro t ht
    exact hallmax t (MaximalIntervalsMinimizer.essentials_subset_all f t ht)
  · intro t ht
    have hmem := MaximalIntervalsMinimizer.minimize_subset_all f t ht
    obtain ⟨hw, _, hne, hs⟩ :=
      (MaximalIntervalsMinimizer.find_all_max_spec f ho hd).1 t hmem
    exact ⟨hzero t hw hs, hne⟩

/-- C2 witness: the one-variable function with ones = [0] and the implicant
    ¬x1 that its minimization returns. -/
theorem C2_soundness_invariant_witness :
    (BooleanInterval.make 1 1 0).covers_mask
        (⟨1, 1, 0⟩ : PartialBooleanFunction).zeros_mask = 0 ∧
    (BooleanInterval.make 1 1 0).covers_mask
        (⟨1, 1, 0⟩ : PartialBooleanFunction).ones_mask ≠ 0 :=
  (C2_soundness_invariant ⟨1, 1, 0⟩ (by decide) (by decide)).2.2.2.2
    (BooleanInterval.make 1 1 0) (by decide)

/-- C3: maximality: every interval returned by find_all_max_intervals admits
    no admissible single-literal-drop generalization: expanding it with
    allowed mask ones_mask ||| dcares_mask yields the empty list. -/
theorem C3_maximality (f : PartialBooleanFunction)
    (ho : f.ones_mask < 2 ^ 2 ^ f.n) (hd : f.dcares_mask < 2 ^ 2 ^ f.n) :
    ∀ t ∈ MaximalIntervalsMinimizer.find_all_max_intervals f,
      t.expand (f.ones_mask ||| f.dcares_mask) = [] := by
  intro t ht
  exact ((MaximalIntervalsMinimizer.find_all_max_spec f ho hd).1 t ht).2.1

/-- C3 witness: the one-variable function with ones = [0] and the maximal
    interval ¬x1 that its search returns. -/
theorem C3_maximality_witness :
    (BooleanInterval.make 1 1 0).expand
      ((⟨1, 1, 0⟩ : PartialBooleanFunction).ones_mask |||
        (⟨1, 1, 0⟩ : PartialBooleanFunction).dcares_mask) = [] :=
  C3_maximality ⟨1, 1, 0⟩ (by decide) (by decide) (BooleanInterval.make 1 1 0)
    (by decide)

/-- C8: determinism of minimization: two runs on the same constructed input
    (n, ones, dontCares) yield the identical DNF string. -/
theorem C8_determinism (n : Nat) (ones dcares : List Int)
    (f1 f2 : PartialBooleanFunction)
    (h1 : PartialBooleanFunction.make n ones dcares = Except.ok f1)
    (h2 : PartialBooleanFunction.make n ones dcares = Except.ok f2) :
    MaximalIntervalsMinimizer.get_minimal_dnf f1 =
      MaximalIntervalsMinimizer.get_minimal_dnf f2 := by
  rw [h1] at h2
  cases h2
  rfl

/-- C8 witness: two constructions of the one-variable function with
    ones = [0]. -/
theorem C8_determinism_witness :
    MaximalIntervalsMinimizer.get_minimal_dnf (⟨1, 1, 0⟩ : PartialBooleanFunction) =
      MaximalIntervalsMinimizer.get_minimal_dnf (⟨1, 1, 0⟩ : PartialBooleanFunction) :=
  C8_determinism 1 [0] [] ⟨1, 1, 0⟩ ⟨1, 1, 0⟩ rfl rfl

/-- C10: empty-function edge case: a valid construction whose ones list
    contributes no in-range index (ones_mask = 0) gives minimize = [] and
    get_minimal_dnf = "0", regardless of don't-cares. -/
theorem C10_empty_ones (n : Nat) (ones dcares : List Int)
    (f : PartialBooleanFunction)
    (hmk : PartialBooleanFunction.make n ones dcares = Except.ok f)
    (hz : f.ones_mask = 0) :
    MaximalIntervalsMinimizer.minimize f = [] ∧
    MaximalIntervalsMinimizer.get_minimal_dnf f = "0" := by
  obtain ⟨hfn, hom, hdm, _⟩ := make_ok_fields hmk
  have ho : f.ones_mask < 2 ^ 2 ^ f.n := by
    rw [hom, hfn]
    exact maskOfList_lt n ones
  have hd : f.dcares_mask < 2 ^ 2 ^ f.n := by
    rw [hdm, hfn]
    exact maskOfList_lt n dcares
  have hmin := MaximalIntervalsMinimizer.minimize_empty f ho hd hz
  exact ⟨hmin, MaximalIntervalsMinimizer.get_minimal_dnf_empty hmin⟩

/-- C10 witness: the one-variable function with ones = [] and
    dontCares = [0]. -/
theorem C10_empty_ones_witness :
    MaximalIntervalsMinimizer.minimize (⟨1, 0, 1⟩ : PartialBooleanFunction) = [] ∧
    MaximalIntervalsMinimizer.get_minimal_dnf (⟨1, 0, 1⟩ : PartialBooleanFunction) =
      "0" :=
  C10_empty_ones 1 [] [0] ⟨1, 0, 1⟩ rfl rfl
